import Mathlib

/-!
# Verification of the Eve literate-DSL parser/lowerer (src/runtime/parser.ts)

A shallow embedding of the parser's lowering semantics.  The TypeScript
parser is a chevrotain recursive-descent parser whose rules simultaneously
recognise syntax and build a per-block IR (`ParseBlock`) by mutating a
current-block pointer.  We embed:

* the IR node shapes (`Node`) and the per-block container (`Block`),
* the mutable parser state (`PState`): the shared variable-lookup
  environments, the block stack, and a store of popped sub-blocks,
* each grammar rule's lowering action as a function from its consumed
  sub-results (tokens and already-lowered nodes) and the parser state to a
  result and an updated state.  A chevrotain rule is exactly such a
  function: it receives the values returned by its `CONSUME`/`SUBRULE`
  calls and mutates `self.block`; we pass those sub-results as arguments.

Modelling conventions:
* JS heap identity is modelled with structured ids.  The source forms node
  ids as the string `blockId ++ "|" ++ n` and sub-block ids as
  `parentId ++ "|sub" ++ n`; we keep the two components (`NodeId`,
  `BlockId.sub`) so that the injective formation of those strings is
  available without string-arithmetic.
* JS mutation of a node that is already referenced from a block list
  (e.g. `record.attributes.push(..)` in `attributeEquality`) is modelled
  by updating the stored copy by node id; ids are allocated from a
  per-block monotonic counter, so they are unique within a block.
* `from` provenance lists are omitted: no verified property mentions them.
* JS numbers are modelled as `Int`; no verified property involves
  fractional values.
* A JS read of an absent property is `undefined`; constants built from such
  reads carry `EValue.undef`.
-/

set_option autoImplicit false

namespace EveParse

/-- A JS value that can appear as a `constant` node's `value` (string,
number, boolean) or the result of reading an absent property (`undef`). -/
inductive EValue where
  | str (s : String)
  | num (n : Int)
  | bool (b : Bool)
  | undef
deriving DecidableEq, Repr

/-- A chevrotain token as the spec describes it:
`(kind, image, start_line, start_column, ...)`.  Note the token shape has
no `name` field; a JS read of `token.name` yields `undefined`. -/
structure Token where
  image : String
  startLine : Nat
  startColumn : Nat
deriving DecidableEq, Repr

/-- Reading the (nonexistent) `name` property of a token, as done by
`attributeOperation`'s merge branch (`attribute.name`): `undefined`. -/
def Token.nameProp (_ : Token) : EValue := EValue.undef

/-- Block ids.  The source forms the id of a sub-block as the string
`parentId + "|sub" + n`; the constructor `sub` keeps the two components so
the formation is injective by construction. -/
inductive BlockId where
  | root (name : String)
  | sub (parent : BlockId) (n : Nat)
deriving DecidableEq, Repr

/-- Node ids.  The source forms them as `blockId + "|" + n`
(`ParseBlock.makeNode`). -/
structure NodeId where
  block : BlockId
  n : Nat
deriving DecidableEq, Repr

/-!
## cleanString (parser.ts lines 18-27) and its specification

The source applies six global string replaces in this order:
`\n`, `\t`, `\r`, `\"`, `\{`, `\}` (each "backslash + designated char"
pattern replaced everywhere by the decoded character).
-/

/-- One global replace of the two-character pattern `'\' ++ c` by the single
character `r`, scanning left to right without overlap — the semantics of
JavaScript `str.replace(/\\c/g, r)` for the patterns used in `cleanString`. -/
def jsReplaceEsc (c r : Char) : List Char → List Char
  | [] => []
  | x :: rest =>
    if x = '\\' then
      match rest with
      | [] => ['\\']
      | c' :: rest' =>
        if c' = c then r :: jsReplaceEsc c r rest'
        else '\\' :: jsReplaceEsc c r (c' :: rest')
    else x :: jsReplaceEsc c r rest

/-- `cleanString` (parser.ts lines 18-27): the six replaces, applied in the
source's order (`\n` first, `\}` last). -/
def cleanString (s : List Char) : List Char :=
  jsReplaceEsc '\x7d' '\x7d'
    (jsReplaceEsc '\x7b' '\x7b'
      (jsReplaceEsc '"' '"'
        (jsReplaceEsc 'r' '\r'
          (jsReplaceEsc 't' '\t'
            (jsReplaceEsc 'n' '\n' s)))))

/-- String-level wrapper (the source operates on JS strings). -/
def cleanStringS (s : String) : String :=
  String.mk (cleanString s.data)

/-- The decoded character for each of the six designated escape characters;
`none` for every other character. -/
def sixDecode (c : Char) : Option Char :=
  if c = 'n' then some '\n'
  else if c = 't' then some '\t'
  else if c = 'r' then some '\r'
  else if c = '"' then some '"'
  else if c = '\x7b' then some '\x7b'
  else if c = '\x7d' then some '\x7d'
  else none

/-- Decoded output for a designated character (identity elsewhere). -/
def escOut (c : Char) : Char :=
  match sixDecode c with
  | some d => d
  | none => c

/-- Specification-side decoder: a single left-to-right scan in which each
backslash pairs with the character following it; pairs whose second
character is in `done` are decoded, all other pairs are left intact. -/
def partialDecode (done : List Char) : List Char → List Char
  | [] => []
  | x :: rest =>
    if x = '\\' then
      match rest with
      | [] => ['\\']
      | c' :: rest' =>
        if c' ∈ done then escOut c' :: partialDecode done rest'
        else '\\' :: c' :: partialDecode done rest'
    else x :: partialDecode done rest

/-- `true` iff the character list never contains two consecutive
backslashes. -/
def noDoubleBS : List Char → Bool
  | '\\' :: '\\' :: _ => false
  | _ :: rest => noDoubleBS rest
  | [] => true

/-- The six designated characters, in the order their replaces are applied
last-to-first (membership is all that matters to `partialDecode`). -/
def sixChars : List Char := ['\x7d', '\x7b', '"', 'r', 't', 'n']

/-!
## IR nodes and blocks

Each constructor corresponds to a `makeNode(type, {..})` call in the
source; the constructor name is the source's `type` tag (`varN` stands for
`"variable"`, which is a Lean keyword; `expr` for `"expression"`; `cmpNode`
/ `addNode` / `mulNode` for the `"comparison"` / `"addition"` /
`"multiplication"` container nodes; `blockRef` for a `ParseBlock` pushed
into a node position, held by id with the block itself in the state's
block store).  Optional fields model properties the source attaches only
on some paths (`record.variable`, `ifExpression.outputs`,
`functionRecord.returns`, `expression.variable`). -/
inductive Node where
  | constant (id : NodeId) (value : EValue)
  | varN (id : NodeId) (name : String) (generated : Bool) (nonProjecting : Bool)
  | paren (id : NodeId) (items : List Node)
  | expr (id : NodeId) (op : String) (args : List Node) (resultVar : Option Node)
  | record (id : NodeId) (attributes : List Node) (action : Option String)
      (recVar : Option Node) (needsEntity : Bool) (scopes : List String)
  | attrN (id : NodeId) (attrVal : EValue) (value : Node) (nonProjecting : Bool)
  | scanN (id : NodeId) (entity : Node) (attrC : Node) (value : Node)
      (needsEntity : Bool) (scopes : List String)
  | ifExpr (id : NodeId) (branches : List Node) (outputs : Option (List Node))
  | ifBranch (id : NodeId) (blockId : BlockId) (outputs : List Node) (exclusive : Bool)
  | cmpNode (id : NodeId) (expressions : List Node)
  | addNode (id : NodeId) (expressions : List Node) (resultVar : Option Node)
  | mulNode (id : NodeId) (expressions : List Node) (resultVar : Option Node)
  | funcRecord (id : NodeId) (op : String) (recordN : Node) (resultVar : Node)
      (returns : Option (List Node))
  | actionN (id : NodeId) (action : String) (entity : Node) (attrVal : EValue)
      (value : Option Node)
  | attrMutator (id : NodeId) (attrTok : Token) (parent : Node)
  | blockRef (id : BlockId)

/-- The node's id (`blockRef` nodes are identified by their block id and
take a dummy node id here; they are never looked up by node id). -/
def Node.idOf : Node → NodeId
  | .constant id _ => id
  | .varN id _ _ _ => id
  | .paren id _ => id
  | .expr id _ _ _ => id
  | .record id _ _ _ _ _ => id
  | .attrN id _ _ _ => id
  | .scanN id _ _ _ _ _ => id
  | .ifExpr id _ _ => id
  | .ifBranch id _ _ _ => id
  | .cmpNode id _ => id
  | .addNode id _ _ => id
  | .mulNode id _ _ => id
  | .funcRecord id _ _ _ _ => id
  | .actionN id _ _ _ _ => id
  | .attrMutator id _ _ => id
  | .blockRef _ => ⟨.root "", 0⟩

/-- The JS `node.variable` property (present only on the node types that
the source gives one). -/
def Node.varOf : Node → Option Node
  | .expr _ _ _ v => v
  | .record _ _ _ v _ _ => v
  | .addNode _ _ v => v
  | .mulNode _ _ v => v
  | .funcRecord _ _ _ v _ => some v
  | _ => none

/-- The JS `node.expressions` property: present exactly on the
`comparison`, `addition` and `multiplication` container nodes. -/
def Node.expressionsOf : Node → Option (List Node)
  | .cmpNode _ es => some es
  | .addNode _ es _ => some es
  | .mulNode _ es _ => some es
  | _ => none

/-- `nonProjecting` of a variable node (`false` when absent, as for the JS
`undefined`). -/
def Node.varNonProjecting : Node → Bool
  | .varN _ _ _ np => np
  | _ => false

/-- `generated` of a variable node. -/
def Node.varGenerated : Node → Bool
  | .varN _ _ g _ => g
  | _ => false

/-- `name` of a variable node (empty for non-variables). -/
def Node.varName : Node → String
  | .varN _ nm _ _ => nm
  | _ => ""

/-- A `ParseBlock` (parser.ts lines 233-290).  `lookupRef` is the index of
this block's `variableLookup` object in the state's `lookups` heap: the JS
constructor either allocates a fresh lookup (root blocks) or stores a
reference to the parent's (`subBlock`), and `lookupRef` models that
reference. -/
structure Block where
  id : BlockId
  nodeId : Nat := 0
  lookupRef : Nat := 0
  btype : Option String := none
  varsUsed : List (String × Node) := []
  equalities : List (Node × Node) := []
  scanLike : List Node := []
  expressions : List Node := []
  binds : List Node := []
  commits : List Node := []

/-- First-match association-list lookup (JS object property read). -/
def aget {α : Type} (l : List (String × α)) (k : String) : Option α :=
  match l with
  | [] => none
  | (k', v) :: rest => if k' = k then some v else aget rest k

/-- Association-list store by block id (for the popped-sub-block store). -/
def bget (l : List (BlockId × Block)) (k : BlockId) : Option Block :=
  match l with
  | [] => none
  | (k', v) :: rest => if k' = k then some v else bget rest k

/-- The mutable parser state: the heap of `variableLookup` objects, the
block stack (`blockStack` in the source; head = `self.block`), the store
of popped sub-blocks (JS keeps them alive via references from nodes), and
the parser's `activeScopes`. -/
structure PState where
  lookups : List (List (String × Node)) := []
  stack : List Block := []
  blockStore : List (BlockId × Block) := []
  activeScopes : List String := ["session"]

/-- The current block (`self.block`). -/
def PState.cur (s : PState) : Option Block := s.stack.head?

/-- Apply a function to the current block (a no-op on an empty stack; the
rules only run between `pushBlock`/`popBlock` of `codeBlock`). -/
def onCur (f : Block → Block) (s : PState) : PState :=
  match s.stack with
  | [] => s
  | b :: rest => { s with stack := f b :: rest }

/-- Allocate the next node id from the current block
(`ParseBlock.makeNode`: `id = blockId + "|" + nodeId++`). -/
def stNextId (s : PState) : NodeId × PState :=
  match s.stack with
  | [] => (⟨.root "", 0⟩, s)
  | b :: rest => (⟨b.id, b.nodeId⟩, { s with stack := { b with nodeId := b.nodeId + 1 } :: rest })

/-- `ParseBlock.toVariable(name, generated)` (parser.ts lines 249-256): if
`variableLookup[name]` exists return it, else allocate a variable node and
store it in `variableLookup`; either way also store the looked-up node in
this block's `variables`. -/
def toVariable (name : String) (generated : Bool) (s : PState) : Node × PState :=
  match s.stack with
  | [] => (Node.constant ⟨.root "", 0⟩ .undef, s)
  | b :: rest =>
    let lk := (s.lookups[b.lookupRef]?).getD []
    match aget lk name with
    | some v =>
      (v, { s with stack := { b with varsUsed := (name, v) :: b.varsUsed } :: rest })
    | none =>
      let id : NodeId := ⟨b.id, b.nodeId⟩
      let v := Node.varN id name generated false
      let b' := { b with nodeId := b.nodeId + 1, varsUsed := (name, v) :: b.varsUsed }
      { s with stack := b' :: rest,
               lookups := s.lookups.set b.lookupRef ((name, v) :: lk) }
      |> fun s' => (v, s')

/-- Overwrite the entry for `name` in the shared lookup and in the current
block's `variables` — models a JS mutation of the shared variable object
(e.g. `variable.nonProjecting = true` in `recordOperation`/`record`), which
is visible through every reference to it. -/
def mutateVar (name : String) (f : Node → Node) (s : PState) : PState :=
  match s.stack with
  | [] => s
  | b :: rest =>
    let lk := (s.lookups[b.lookupRef]?).getD []
    let lk' := lk.map (fun p => if p.1 = name then (p.1, f p.2) else p)
    let b' := { b with varsUsed := b.varsUsed.map (fun p => if p.1 = name then (p.1, f p.2) else p) }
    { s with stack := b' :: rest, lookups := s.lookups.set b.lookupRef lk' }

/-- `ParseBlock.subBlock()` (parser.ts lines 286-289): the child's id is
`parentId|sub<nodeId++>` and its `variableLookup` is the *same reference*
as the parent's.  Returns (child, parent with bumped counter). -/
def Block.subBlock (b : Block) : Block × Block :=
  ({ id := BlockId.sub b.id b.nodeId, nodeId := 0, lookupRef := b.lookupRef },
   { b with nodeId := b.nodeId + 1 })

/-- `pushBlock(blockId?)` (parser.ts lines 378-389): a sub-block of the
current block when the stack is nonempty, else a fresh root block with a
fresh (empty) `variableLookup`. -/
def pushBlock (bid : Option String) (s : PState) : PState :=
  match s.stack with
  | prev :: rest =>
    let (child, prev') := prev.subBlock
    { s with stack := child :: prev' :: rest }
  | [] =>
    let b : Block := { id := .root (bid.getD "block"), lookupRef := s.lookups.length }
    { s with stack := [b], lookups := s.lookups ++ [[]] }

/-- `popBlock()` (parser.ts lines 391-395).  The popped block is recorded
in the block store (JS keeps it reachable through node references). -/
def popBlock (s : PState) : Option Block × PState :=
  match s.stack with
  | [] => (none, s)
  | b :: rest => (some b, { s with stack := rest, blockStore := (b.id, b) :: s.blockStore })

/-- `self.block.equality(a, b)`. -/
def stEquality (a b : Node) (s : PState) : PState :=
  onCur (fun blk => { blk with equalities := blk.equalities ++ [(a, b)] }) s

/-- `self.block.scan(node)`. -/
def stScan (n : Node) (s : PState) : PState :=
  onCur (fun blk => { blk with scanLike := blk.scanLike ++ [n] }) s

/-- `self.block.expression(node)`. -/
def stExpression (n : Node) (s : PState) : PState :=
  onCur (fun blk => { blk with expressions := blk.expressions ++ [n] }) s

/-- `self.block.bind(node)`. -/
def stBind (n : Node) (s : PState) : PState :=
  onCur (fun blk => { blk with binds := blk.binds ++ [n] }) s

/-- `self.block.commit(node)`. -/
def stCommit (n : Node) (s : PState) : PState :=
  onCur (fun blk => { blk with commits := blk.commits ++ [n] }) s

/-- The dynamic `self.block[blockKey](record)` dispatch (`blockKey` is
`"scan"`, `"bind"` or `"commit"`). -/
inductive BlockKey where
  | scan
  | bind
  | commit
deriving DecidableEq, Repr

def stByKey (k : BlockKey) (n : Node) (s : PState) : PState :=
  match k with
  | .scan => stScan n s
  | .bind => stBind n s
  | .commit => stCommit n s

/-- The list of the current block that `blockKey` appends to. -/
def curByKey (k : BlockKey) (s : PState) : List Node :=
  match s.cur with
  | none => []
  | some b =>
    match k with
    | .scan => b.scanLike
    | .bind => b.binds
    | .commit => b.commits

def curScanLike (s : PState) : List Node := (s.cur.map Block.scanLike).getD []
def curEqualities (s : PState) : List (Node × Node) := (s.cur.map Block.equalities).getD []
def curExpressions (s : PState) : List Node := (s.cur.map Block.expressions).getD []
def curVars (s : PState) : List (String × Node) := (s.cur.map Block.varsUsed).getD []

/-- The shared `variableLookup` of the current block. -/
def curLookup (s : PState) : List (String × Node) :=
  match s.cur with
  | none => []
  | some b => (s.lookups[b.lookupRef]?).getD []

/-- Mutation of a node already stored in the current block's lists, by id
(models JS mutation through a shared object reference; node ids are unique
within a block because `makeNode` allocates them from a monotonic
counter). -/
def updateStored (id : NodeId) (f : Node → Node) (s : PState) : PState :=
  let g := fun (n : Node) => if n.idOf = id then f n else n
  onCur (fun blk =>
    { blk with scanLike := blk.scanLike.map g,
               expressions := blk.expressions.map g,
               binds := blk.binds.map g,
               commits := blk.commits.map g }) s

/-- `asValue(node)` (parser.ts lines 353-360): constants, variables and
parentheses are themselves values; otherwise the node's `variable`;
otherwise a fatal error. -/
def asValue (node : Node) : Except String Node :=
  match node with
  | .constant _ _ => .ok node
  | .varN _ _ _ _ => .ok node
  | .paren _ _ => .ok node
  | _ =>
    match node.varOf with
    | some v => .ok v
    | none => .error "Tried to get value of a node that is neither a constant nor a variable."

/-- `ifOutputs(expression)` (parser.ts lines 361-371). -/
def ifOutputs (e : Node) : Except String (List Node) :=
  match e with
  | .paren _ items => items.mapM asValue
  | _ => do pure [← asValue e]

/-!
## Rule lowering functions

Each function mirrors one grammar rule's body.  A `SUBRULE` result that the
rule treats as an opaque value appears as a `Node` argument (its lowering
side effects are already in the incoming state); consumed tokens appear as
`Token` arguments.
-/

/-- `name + "|" + line + "|" + col` — the position-derived names the source
gives to generated variables. -/
def posName (base : String) (t : Token) : String :=
  base ++ "|" ++ toString t.startLine ++ "|" ++ toString t.startColumn

/-- `image + "-" + line + "-" + col` — the `forceGenerate` name suffixing
in the `variable` rule (parser.ts line 1148). -/
def genVarName (t : Token) : String :=
  t.image ++ "-" ++ toString t.startLine ++ "-" ++ toString t.startColumn

/-- `parseFloat` restricted to the integral literals the proofs use. -/
def parseFloatI (s : String) : Int := (s.toInt?).getD 0

/-- The `variable` rule (parser.ts lines 1144-1153). -/
def variableRule (t : Token) (forceGenerate : Bool) (s : PState) : Node × PState :=
  let name := if forceGenerate then genVarName t else t.image
  toVariable name forceGenerate s

/-- The `num` rule (parser.ts lines 1203-1206). -/
def numRule (t : Token) (s : PState) : Node × PState :=
  let (id, s) := stNextId s
  (Node.constant id (.num (parseFloatI t.image)), s)

/-- The `bool` rule (parser.ts lines 1198-1201). -/
def boolRule (t : Token) (s : PState) : Node × PState :=
  let (id, s) := stNextId s
  (Node.constant id (.bool (t.image = "true")), s)

/-- `variable.nonProjecting = true` on a variable node. -/
def markNP : Node → Node
  | .varN id nm g _ => .varN id nm g true
  | n => n

/-- One iteration result of the `record` rule's `MANY`: either the `|`
pipe token, or what the `attribute` subrule returned — a list holding the
returned attribute node(s) (the source distinguishes a single node from an
array only to iterate both; `attributeNot` returns nothing, modelled by the
empty list). -/
inductive RecItem where
  | pipe (t : Token)
  | attrRes (attrs : List Node)

/-- `attr.nonProjecting = nonProjecting` (parser.ts lines 670/675). -/
def setAttrNP (np : Bool) : Node → Node
  | .attrN id a v _ => .attrN id a v np
  | n => n

/-- The `record` rule's attribute loop (parser.ts lines 659-687): the pipe
flips the `nonProjecting` flag, every attribute parsed after it is marked
non-projecting, and the attribute nodes accumulate in order. -/
def applyPipeFlags (np : Bool) : List RecItem → List Node
  | [] => []
  | .pipe _ :: rest => applyPipeFlags true rest
  | .attrRes attrs :: rest => attrs.map (setAttrNP np) ++ applyPipeFlags np rest

/-- The name of a record's generated identity variable
(`record|line|col`, parser.ts line 656). -/
def recName (t : Token) : String := posName "record" t

/-- The `record` rule (parser.ts lines 647-693).  The attribute
sub-results arrive pre-lowered in `items` (their state effects precede
this call); `parent`/`extraProjection` are omitted (no verified property
mentions them). -/
def recordRule (start : Token) (noVar : Bool) (blockKey : BlockKey) (action : Option String)
    (items : List RecItem) (s : PState) : Node × PState :=
  let (rid, s) := stNextId s
  let scopes := s.activeScopes
  let (v?, s) :=
    if noVar then ((none : Option Node), s)
    else
      let (v, s) := toVariable (recName start) true s
      let s := mutateVar (recName start) markNP s
      (some (markNP v), s)
  let attrs := applyPipeFlags false items
  let recN := Node.record rid attrs action v? false scopes
  let s := if noVar then s else stByKey blockKey recN s
  (recN, s)

/-- Append an attribute to a record node value (the local reference). -/
def recPushAttrLocal (a : Node) : Node → Node
  | .record id attrs act v ne sc => .record id (attrs ++ [a]) act v ne sc
  | n => n

/-- `record.attributes.push(a)` on a record that may already be stored in
the current block's lists (JS mutates the shared object; we update the
stored copy by id). -/
def pushRecAttr (rid : NodeId) (a : Node) (s : PState) : PState :=
  updateStored rid (recPushAttrLocal a) s

/-- `makeNode("attribute", {attribute: "eve-auto-index", value:
makeNode("constant", {value: i, from: []}), from: []})` — the constant is
allocated first (argument evaluation), then the attribute node. -/
def autoIndexAttr (i : Int) (s : PState) : Node × PState :=
  let (cid, s) := stNextId s
  let c := Node.constant cid (.num i)
  let (aid, s) := stNextId s
  (Node.attrN aid (.str "eve-auto-index") c false, s)

/-- The `attributeEquality` right-hand side: the result of `infix`, or one
record followed by any number of further records. -/
inductive AttrEqRhs where
  | infixVal (result : Node)
  | records (first : Token × List RecItem) (rest : List (Token × List RecItem))

/-- The attribute key: identifier image, or `parseFloat` of a number
(parser.ts lines 767-776). -/
def attrEqKey (t : Token) (isNum : Bool) : EValue :=
  if isNum then .num (parseFloatI t.image) else .str t.image

/-- One iteration of `attributeEquality`'s `MANY` loop (parser.ts lines
785-790, `autoIndex` already bumped by the caller): parse the record,
allocate its `eve-auto-index` attribute and push it onto the (possibly
already stored) record, then build the attribute pairing the key with the
record's value. -/
def aeStep (noVar : Bool) (blockKey : BlockKey) (action : Option String) (key : EValue)
    (tok : Token) (items : List RecItem) (autoIndex : Int) (s : PState) :
    Except String (Node × PState) := do
  let (recN, s) := recordRule tok noVar blockKey action items s
  let (ixA, s) := autoIndexAttr autoIndex s
  let s := pushRecAttr recN.idOf ixA s
  let v ← asValue recN
  let (aid, s) := stNextId s
  .ok (Node.attrN aid key v false, s)

/-- `attributeEquality`'s `MANY` loop (parser.ts lines 785-790): for each
further record bump `autoIndex` and run one iteration, collecting the
produced attributes in order. -/
def aeLoop (noVar : Bool) (blockKey : BlockKey) (action : Option String) (key : EValue) :
    List (Token × List RecItem) → Int → PState → Except String (List Node × PState)
  | [], _, s => .ok ([], s)
  | (tok, items) :: rest, autoIndex, s => do
    let ai := autoIndex + 1
    let (a, s) ← aeStep noVar blockKey action key tok items ai s
    let (more, s) ← aeLoop noVar blockKey action key rest ai s
    .ok (a :: more, s)

/-- The `attributeEquality` rule (parser.ts lines 763-798). -/
def attributeEqualityRule (attrTok : Token) (isNum : Bool) (noVar : Bool)
    (blockKey : BlockKey) (action : Option String) (rhs : AttrEqRhs) (s : PState) :
    Except String (List Node × PState) := do
  let key := attrEqKey attrTok isNum
  match rhs with
  | .infixVal result => do
    let v ← asValue result
    let (aid, s) := stNextId s
    .ok ([Node.attrN aid key v false], s)
  | .records (tok1, items1) rest => do
    let (result, s) := recordRule tok1 noVar blockKey action items1 s
    let (attrs, s) ← aeLoop noVar blockKey action key rest 1 s
    let s :=
      if rest.length ≠ 0 then
        let (ixA, s') := autoIndexAttr 1 s
        pushRecAttr result.idOf ixA s'
      else s
    let v ← asValue result
    let (aid, s) := stNextId s
    .ok (attrs ++ [Node.attrN aid key v false], s)

/-- The generated value-variable name `image|line|col` used by attribute
access and mutation (parser.ts lines 733, 753, 561). -/
def attrPosName (t : Token) : String := posName t.image t

/-- `attributeMutator`'s `MANY` loop (parser.ts lines 729-739): each
intermediate `ident .` step allocates a generated value variable and emits
a scan whose attribute constant carries `value.name` (the *generated*
name — the source reads `value.name`, not `attribute.image`, here), with
`needsEntity` true only on the first step. -/
def amLoop (steps : List Token) (entity : Node) (needsEntity : Bool) (s : PState) : Node × PState :=
  match steps with
  | [] => (entity, s)
  | a :: rest =>
    let (v, s) := toVariable (attrPosName a) true s
    let (cid, s) := stNextId s
    let c := Node.constant cid (.str v.varName)
    let (sid, s) := stNextId s
    let sc := Node.scanN sid entity c v needsEntity s.activeScopes
    let s := stScan sc s
    amLoop rest v false s

/-- The `attributeMutator` rule (parser.ts lines 721-743): `variable`, a
dot, intermediate `ident .` steps, then the final attribute identifier,
returned with the last entity as `parent`. -/
def attributeMutatorRule (entityTok : Token) (steps : List Token) (finalAttr : Token)
    (s : PState) : Node × PState :=
  let (entity0, s) := variableRule entityTok false s
  let (parentN, s) := amLoop steps entity0 true s
  let (mid, s) := stNextId s
  (Node.attrMutator mid finalAttr parentN, s)

/-- The `<-` alternative of `attributeOperation` (parser.ts lines
560-570): allocate the generated value variable named from the attribute
token's position, emit a scan of the mutator's parent against a constant
carrying `attribute.name` (the token's nonexistent `name` property, i.e.
`undefined`), then parse the merging record with `noVar`, bind it to the
value variable and tag it `action = "<-"`. -/
def attributeOperationMerge (mutator : Node) (recStart : Token) (items : List RecItem)
    (s : PState) : Except String (Node × PState) :=
  match mutator with
  | .attrMutator _ attrTok parentN =>
    let (v, s) := toVariable (attrPosName attrTok) true s
    let (cid, s) := stNextId s
    let c := Node.constant cid attrTok.nameProp
    let (sid, s) := stNextId s
    let sc := Node.scanN sid parentN c v false s.activeScopes
    let s := stScan sc s
    let (recN, s) := recordRule recStart true .scan none items s
    let recN' :=
      match recN with
      | .record id attrs _ _ ne scp => Node.record id attrs (some "<-") (some v) ne scp
      | n => n
    .ok (recN', s)
  | _ => .error "attributeOperation requires an attributeMutator"

/-- The `<-` alternative of `recordOperation` (parser.ts lines 602-610):
`v <- [..]` parses the record with `noVar`, sets `needsEntity`, binds the
surface variable as the record's variable, marks that variable
`nonProjecting`, and tags `action = "<-"`. -/
def recordOperationMerge (varTok : Token) (recStart : Token) (items : List RecItem)
    (s : PState) : Node × PState :=
  let (v, s) := variableRule varTok false s
  let (recN, s) := recordRule recStart true .scan none items s
  let s := mutateVar varTok.image markNP s
  let v' := markNP v
  let recN' :=
    match recN with
    | .record id attrs _ _ _ scp => Node.record id attrs (some "<-") (some v') true scp
    | n => n
  (recN', s)

/-- The `actionEqualityRecord` rule (parser.ts lines 634-641): `v = [..]`
in an action section parses the record with `noVar`, sets the surface
variable as the record's variable, and appends the record via the
section's action key. -/
def actionEqualityRecordRule (varTok : Token) (_eqTok : Token) (recStart : Token)
    (items : List RecItem) (actionKey : BlockKey) (s : PState) : Node × PState :=
  let (v, s) := variableRule varTok false s
  let (recN, s) := recordRule recStart true actionKey (some "+=") items s
  let recN' :=
    match recN with
    | .record id attrs act _ ne scp => Node.record id attrs act (some v) ne scp
    | n => n
  let s := stByKey actionKey recN' s
  (recN', s)

/-- The `addition` rule's operator loop (parser.ts lines 1057-1068): for
each `+`/`-`, allocate a fresh result variable named from the operator's
position, emit an expression node, and chain the next step from that
expression. -/
def addLoop : List (Token × Node) → Node → List Node → Option Node → PState →
    Except String (List Node × Option Node × PState)
  | [], _, exprs, curVar?, s => .ok (exprs, curVar?, s)
  | (op, right) :: rest, curLeft, exprs, _, s => do
    let (curVar, s) := toVariable (posName "addition" op) true s
    let lv ← asValue curLeft
    let rv ← asValue right
    let (eid, s) := stNextId s
    let e := Node.expr eid op.image [lv, rv] (some curVar)
    let s := stExpression e s
    addLoop rest e (exprs ++ [e]) (some curVar) s

/-- The `addition` rule (parser.ts lines 1044-1071); `multiplication`
(lines 1073-1100) is the same lowering with `MultInfix` operators. -/
def additionRule (left : Node) (ops : List (Token × Node)) (s : PState) :
    Except String (Node × PState) :=
  match ops with
  | [] => .ok (left, s)
  | _ => do
    let (exprs, curVar?, s) ← addLoop ops left [] none s
    let (aid, s) := stNextId s
    .ok (Node.addNode aid exprs curVar?, s)

/-- A consumed comparison-or-equality operator token
(`CONSUME(Comparison)` / `CONSUME(Equality)`); `isEquality` models the
source's `comparator instanceof Equality` test. -/
inductive CompTok where
  | cmp (t : Token)
  | eq (t : Token)
deriving DecidableEq, Repr

def CompTok.tok : CompTok → Token
  | .cmp t => t
  | .eq t => t

def CompTok.isEquality : CompTok → Bool
  | .cmp _ => false
  | .eq _ => true

/-- `value.outputs = outs` on an ifExpression node. -/
def setIfOutputs (outs : List Node) : Node → Node
  | .ifExpr id br _ => .ifExpr id br (some outs)
  | n => n

/-- `value.returns = rets` on a functionRecord node. -/
def setReturns (rets : List Node) : Node → Node
  | .funcRecord id op r v _ => .funcRecord id op r v (some rets)
  | n => n

def Node.isIfExpr : Node → Bool
  | .ifExpr _ _ _ => true
  | _ => false

def Node.isFuncRecord : Node → Bool
  | .funcRecord _ _ _ _ _ => true
  | _ => false

def Node.isParen : Node → Bool
  | .paren _ _ => true
  | _ => false

def Node.parenItems : Node → List Node
  | .paren _ items => items
  | _ => []

def Node.isConstant : Node → Bool
  | .constant _ _ => true
  | _ => false

/-- The `comparison` rule's pair loop (parser.ts lines 891-924).  The
left operand of each pair starts at the outermost left and advances to the
just-consumed right.  Note the `ifExpression` equality case reads
`ifOutputs(left)` — the *outermost* left, not `curLeft`. -/
def cmpLoop (nonFiltering : Bool) (left0 : Node) :
    Node → List (CompTok × Node) → List Node → PState → Except String (List Node × PState)
  | _, [], exprs, s => .ok (exprs, s)
  | curLeft, (c, value) :: rest, exprs, s => do
    if nonFiltering then
      let (v, s) := toVariable (posName "comparison" c.tok) true s
      let lv ← asValue curLeft
      let rv ← asValue value
      let (eid, s) := stNextId s
      let e := Node.expr eid c.tok.image [lv, rv] (some v)
      let s := stExpression e s
      cmpLoop nonFiltering left0 value rest (exprs ++ [e]) s
    else if c.isEquality then
      if value.isIfExpr then
        let outs ← ifOutputs left0
        let value' := setIfOutputs outs value
        let s := stScan value' s
        cmpLoop nonFiltering left0 value' rest exprs s
      else if value.isFuncRecord && curLeft.isParen then
        let rets ← curLeft.parenItems.mapM asValue
        let value' := setReturns rets value
        let s := updateStored value.idOf (setReturns rets) s
        match rets with
        | [] => .error "Tried to get value of a node that is neither a constant nor a variable."
        | r0 :: _ => do
          let r0v ← asValue r0
          let fv ← asValue value'
          let s := stEquality r0v fv s
          cmpLoop nonFiltering left0 value' rest exprs s
      else if curLeft.isParen then
        .error "Left hand parenthesis without an if or function on the right"
      else
        let lv ← asValue curLeft
        let rv ← asValue value
        let s := stEquality lv rv s
        cmpLoop nonFiltering left0 value rest exprs s
    else
      let lv ← asValue curLeft
      let rv ← asValue value
      let (eid, s) := stNextId s
      let e := Node.expr eid c.tok.image [lv, rv] none
      let s := stExpression e s
      cmpLoop nonFiltering left0 value rest (exprs ++ [e]) s

/-- The `comparison` rule (parser.ts lines 875-928): with no operators the
inner expression passes through; otherwise run the pair loop and return a
`comparison` container node holding the emitted expression nodes. -/
def comparisonRule (nonFiltering : Bool) (left : Node) (rights : List (CompTok × Node))
    (s : PState) : Except String (Node × PState) :=
  match rights with
  | [] => .ok (left, s)
  | _ => do
    let (exprs, s) ← cmpLoop nonFiltering left left rights [] s
    let (cid, s) := stNextId s
    .ok (Node.cmpNode cid exprs, s)

/-- The lowering of a branch body (its statements and then/else
expression, run inside the pushed sub-block). -/
def ExprEff : Type := PState → Except String (Node × PState)

/-- Common shape of `ifBranch` / `elseIfBranch` / `elseBranch` (parser.ts
lines 993-1034): push a sub-block, lower the body in it, pop, and build an
`ifBranch` node (in the outer block) carrying the popped block, the
`ifOutputs` of the body's expression, and the exclusivity flag. -/
def branchRule (exclusive : Bool) (body : ExprEff) (s : PState) : Except String (Node × PState) := do
  let s := pushBlock none s
  let (e, s) ← body s
  let (popped, s) := popBlock s
  match popped with
  | none => .error "block stack underflow"
  | some blk => do
    let outs ← ifOutputs e
    let (bid, s) := stNextId s
    .ok (Node.ifBranch bid blk.id outs exclusive, s)

/-- `ifBranch` (parser.ts lines 993-1009): `exclusive = false`. -/
def ifBranchRule (body : ExprEff) : PState → Except String (Node × PState) :=
  branchRule false body

/-- `elseIfBranch` (parser.ts lines 1011-1025): `exclusive = true`. -/
def elseIfBranchRule (body : ExprEff) : PState → Except String (Node × PState) :=
  branchRule true body

/-- `elseBranch` (parser.ts lines 1027-1034): `exclusive = true`. -/
def elseBranchRule (body : ExprEff) : PState → Except String (Node × PState) :=
  branchRule true body

/-- A branch consumed by `ifExpression`'s `MANY`: a further plain `if`
branch, or an `else if` branch. -/
inductive RestBranch where
  | plainIf (body : ExprEff)
  | elseIf (body : ExprEff)

def RestBranch.body : RestBranch → ExprEff
  | .plainIf b => b
  | .elseIf b => b

def RestBranch.exclusive : RestBranch → Bool
  | .plainIf _ => false
  | .elseIf _ => true

/-- `ifExpression`'s `MANY` (parser.ts lines 981-986). -/
def restBranches : List RestBranch → PState → Except String (List Node × PState)
  | [], s => .ok ([], s)
  | rb :: rest, s => do
    let (b, s) ← branchRule rb.exclusive rb.body s
    let (bs, s) ← restBranches rest s
    .ok (b :: bs, s)

/-- The `ifExpression` rule (parser.ts lines 977-991): the first `if`
branch, any number of further `if` / `else if` branches, an optional
`else` branch, collected into an `ifExpression` node (with no `outputs`
yet — the equality machinery attaches them). -/
def ifExpressionRule (first : ExprEff) (rest : List RestBranch) (els : Option ExprEff)
    (s : PState) : Except String (Node × PState) := do
  let (b1, s) ← ifBranchRule first s
  let (bs, s) ← restBranches rest s
  let (ebs, s) ←
    match els with
    | none => Except.ok (([] : List Node), s)
    | some body => do
      let (b, s) ← elseBranchRule body s
      Except.ok ([b], s)
  let (iid, s) := stNextId s
  .ok (Node.ifExpr iid (b1 :: (bs ++ ebs)) none, s)

/-- `isExpression`'s collection loop (parser.ts lines 958-964): iterate
each comparison result's `expressions` property and take each element's
value.  When the property is absent (the comparison consumed no operator
and returned a plain value), the JS `for..of` over `undefined` throws. -/
def collectIsArgs : List Node → Except String (List Node)
  | [] => .ok []
  | r :: rest =>
    match r.expressionsOf with
    | none => .error "TypeError: comparison.expressions is not iterable"
    | some es => do
      let vs ← es.mapM asValue
      let more ← collectIsArgs rest
      .ok (vs ++ more)

/-- The `isExpression` rule (parser.ts lines 951-971).  `results` are the
values returned by the inner `comparison[nonFiltering=true]` subrule
calls (their state effects precede this call). -/
def isExpressionRule (isTok : Token) (results : List Node) (s : PState) :
    Except String (Node × PState) := do
  let args ← collectIsArgs results
  let (v, s) := toVariable (posName "is" isTok) true s
  let (eid, s) := stNextId s
  let isN := Node.expr eid "and" args (some v)
  let s := stExpression isN s
  .ok (isN, s)

/-- A part consumed by `stringInterpolation`'s `MANY`: a string-characters
token, or an embedded (already-lowered) `infix` expression. -/
inductive StrPart where
  | chars (t : Token)
  | embed (n : Node)

/-- `stringInterpolation`'s part loop (parser.ts lines 1163-1178): each
string-chars token becomes a constant holding its `cleanString`ed image;
every part is pushed through `asValue`. -/
def strPartsLoop : List StrPart → List Node → PState → Except String (List Node × PState)
  | [], args, s => .ok (args, s)
  | .chars t :: rest, args, s => do
    let (cid, s) := stNextId s
    let c := Node.constant cid (.str (cleanStringS t.image))
    let v ← asValue c
    strPartsLoop rest (args ++ [v]) s
  | .embed n :: rest, args, s => do
    let v ← asValue n
    strPartsLoop rest (args ++ [v]) s

/-- The concat tail of `stringInterpolation` (parser.ts lines 1183-1187):
a generated `concat|line|col` variable and a `concat` expression appended
to the block's expressions. -/
def mkConcatExpr (start : Token) (args : List Node) (s : PState) : Node × PState :=
  let (v, s) := toVariable (posName "concat" start) true s
  let (eid, s) := stNextId s
  let e := Node.expr eid "concat" args (some v)
  (e, stExpression e s)

/-- The `stringInterpolation` rule (parser.ts lines 1159-1188): a single
constant part collapses to that constant; anything else becomes a `concat`
expression. -/
def stringInterpolationRule (start : Token) (parts : List StrPart) (s : PState) :
    Except String (Node × PState) := do
  let (args, s) ← strPartsLoop parts [] s
  match args with
  | [a] =>
    if a.isConstant then .ok (a, s)
    else .ok (mkConcatExpr start [a] s)
  | _ => .ok (mkConcatExpr start args s)

/-- The `functionRecord` rule's general path (parser.ts lines 862-868):
lower the argument record with `noVar`, allocate a `return|line|col`
variable, emit a `functionRecord` expression and append it to the block's
expressions.  (The `lookup` special case, lines 854-861, is not modelled:
no verified property mentions it.) -/
def functionRecordRule (nameTok : Token) (recStart : Token) (items : List RecItem)
    (s : PState) : Node × PState :=
  let (recN, s) := recordRule recStart true .scan none items s
  let (v, s) := toVariable (posName "return" nameTok) true s
  let (fid, s) := stNextId s
  let f := Node.funcRecord fid nameTok.image recN v none
  let s := stExpression f s
  (f, s)

/-!
## Call sequences against the shared variable environment (for C1)

An arbitrary interleaving of `toVariable` calls and sub-block
pushes/pops, as performed by the rules while parsing one root block.
-/

inductive VOp where
  | toVar (name : String) (generated : Bool)
  | push
  | pop

def runVOp : VOp → PState → PState
  | .toVar n g, s => (toVariable n g s).2
  | .push, s => pushBlock none s
  | .pop, s => (popBlock s).2

def runVOps : List VOp → PState → PState
  | [], s => s
  | op :: rest, s => runVOps rest (runVOp op s)

/-- The op sequence never pops the root block: starting from stack depth
`d ≥ 1`, the depth stays at least 1, so every push is a `subBlock` of a
block of the same tree (sharing its `variableLookup`). -/
def vopsSafe : List VOp → Nat → Bool
  | [], _ => true
  | .toVar _ _ :: rest, d => vopsSafe rest d
  | .push :: rest, d => vopsSafe rest (d + 1)
  | .pop :: rest, d => decide (2 ≤ d) && vopsSafe rest (d - 1)

/-!
## Document driver error accumulation (for C6)
-/

/-- A parser diagnostic (contents irrelevant to the verified property). -/
structure ParseError where
  message : String
deriving DecidableEq, Repr

/-- Modelled from the spec: the chevrotain `Parser` base class that holds
the error list is not part of src/.  Per the spec, "The parser reports
errors through an accumulator on the parser instance; callers retrieve
them via `errors`" — the accumulator only grows while parsing. -/
structure ChevParser where
  errors : List ParseError := []
deriving DecidableEq, Repr

/-- Modelled from the spec: the effect of `eveParser.codeBlock(..)` on the
error accumulator — the errors this block's parse reports are appended to
the parser instance's accumulator. -/
def runCodeBlock (blockErrors : List ParseError) (p : ChevParser) : ChevParser :=
  { p with errors := p.errors ++ blockErrors }

/-- `parseBlock` (parser.ts lines 1222-1243), restricted to its error
flow: run the block parse on the shared parser instance and return
`eveParser.errors`. -/
def parseBlockModel (blockErrors : List ParseError) (p : ChevParser) :
    List ParseError × ChevParser :=
  let p' := runCodeBlock blockErrors p
  (p'.errors, p')

/-- `parseDoc` (parser.ts lines 1246-1259), restricted to its error flow:
call `parseBlock` for each emitted block (each block abstracted by the
errors its parse reports) and return `eveParser.errors` at the end. -/
def parseDocModel (docBlocks : List (List ParseError)) (p : ChevParser) :
    List ParseError × ChevParser :=
  match docBlocks with
  | [] => (p.errors, p)
  | be :: rest => parseDocModel rest (parseBlockModel be p).2

/-!
## Observables and concrete runs used by the claim statements
-/

/-- The lookup object at heap reference `r`. -/
def lookupAt (s : PState) (r : Nat) : List (String × Node) :=
  (s.lookups[r]?).getD []

/-- All blocks on the stack hold the same `variableLookup` reference `r` —
the invariant of one root block's tree, maintained because `subBlock`
passes the parent's `variableLookup` on. -/
def allRef (r : Nat) (s : PState) : Prop :=
  ∀ b ∈ s.stack, b.lookupRef = r

/-- The stack depth after one op. -/
def vopDepth (op : VOp) (d : Nat) : Nat :=
  match op with
  | .toVar _ _ => d
  | .push => d + 1
  | .pop => d - 1

/-- The concrete run of `v.attr <- [ ]` (attribute identifier token
`attr` at line 3, column 3; record bracket at column 11) inside a fresh
root block. -/
def c5run : Except String (Node × PState) :=
  let s0 := pushBlock (some "b0") {}
  let m := attributeMutatorRule ⟨"v", 3, 1⟩ [] ⟨"attr", 3, 3⟩ s0
  attributeOperationMerge m.1 ⟨"[", 3, 11⟩ [] m.2

/-- Facts about the single scan that the run appends to the block: the
entity variable's name, the attribute constant's value, the value
variable's name, and `needsEntity`. -/
def c5scanFacts : Option (String × EValue × String × Bool) :=
  match c5run with
  | .ok (_, s) =>
    match curScanLike s with
    | [Node.scanN _ (Node.varN _ enm _ _) (Node.constant _ av) (Node.varN _ vnm _ _) ne _] =>
      some (enm, av, vnm, ne)
    | _ => none
  | .error _ => none

/-- The returned merging record's action, its bound variable's name, and
whether that variable is generated. -/
def c5recFacts : Option (String × String × Bool) :=
  match c5run with
  | .ok (recN, _) =>
    match recN with
    | .record _ _ (some act) (some (Node.varN _ nm g _)) _ _ => some (act, nm, g)
    | _ => none
  | .error _ => none

/-- The record `action` property. -/
def Node.recActionOf : Node → Option String
  | .record _ _ act _ _ _ => act
  | _ => none

/-- The `needsEntity` property of a record or scan. -/
def Node.needsEntityOf : Node → Bool
  | .record _ _ _ _ ne _ => ne
  | .scanN _ _ _ _ ne _ => ne
  | _ => false

/-- The record returned by the concrete `v <- [ ]` record operation in a
fresh root block. -/
def c4run : Node :=
  (recordOperationMerge ⟨"v", 3, 1⟩ ⟨"[", 3, 6⟩ [] (pushBlock (some "b0") {})).1

/-- `true` iff the Except result is `ok`. -/
def exOk {α : Type} : Except String α → Bool
  | .ok _ => true
  | .error _ => false

/-- The concrete lowering of the operand `x + 1` of `is(x + 1)`. -/
def c10addState : Except String (Node × PState) :=
  let s0 := pushBlock (some "b0") {}
  let xv := variableRule ⟨"x", 1, 4⟩ false s0
  let one := numRule ⟨"1", 1, 8⟩ xv.2
  additionRule xv.1 [(⟨"+", 1, 6⟩, one.1)] one.2

/-- The concrete lowering of `is(x + 1)`: the inner `comparison` call
consumes no comparison or equality operator (its `rights` list is empty),
returning the addition node, which *does* carry an `expressions`
property. -/
def c10run : Except String (Node × PState) :=
  match c10addState with
  | .ok (addN, s) =>
    match comparisonRule true addN [] s with
    | .ok (cN, s1) => isExpressionRule ⟨"is", 1, 1⟩ [cN] s1
    | .error e => .error e
  | .error e => .error e

/-- The `attributes` property of a record node. -/
def Node.recAttrsOf : Node → Option (List Node)
  | .record _ attrs _ _ _ _ => some attrs
  | _ => none

/-- `true` iff the node is a record. -/
def Node.isRecordB : Node → Bool
  | .record _ _ _ _ _ _ => true
  | _ => false

/-- The list a `blockKey` denotes on a block. -/
def Block.byKey : BlockKey → Block → List Node
  | .scan, b => b.scanLike
  | .bind, b => b.binds
  | .commit, b => b.commits

/-- The current block's id. -/
def headId (s : PState) : Option BlockId := s.stack.head?.map Block.id

/-- The current block's node-id counter. -/
def headNodeCounter (s : PState) : Nat := (s.stack.head?.map Block.nodeId).getD 0

/-- Every node of the list allocated from block `bid` has a node counter
below `n` (all already-allocated ids are in the past of the counter). -/
def idsBelow (bid : BlockId) (n : Nat) (l : List Node) : Prop :=
  ∀ nd ∈ l, nd.idOf.block = bid → nd.idOf.n < n

/-- `attributeEquality`'s loop postcondition: the records appended for the
further right-hand-side records, in source order — each carries its input
attributes followed by an `eve-auto-index` attribute whose constant is
`autoIndex + 1`, `autoIndex + 2`, …, and each was allocated from block
`bid` at or after counter `n`. -/
def RecsAuto (action : Option String) (bid : BlockId) (n : Nat) :
    List Node → List (Token × List RecItem) → Int → Prop
  | [], [], _ => True
  | r :: rs, (_, items) :: restPairs, autoIndex =>
      (∃ aid cid,
        r.recAttrsOf = some (applyPipeFlags false items ++
          [Node.attrN aid (EValue.str "eve-auto-index")
            (Node.constant cid (EValue.num (autoIndex + 1))) false]) ∧
        r.recActionOf = action ∧ r.idOf.block = bid ∧ n ≤ r.idOf.n) ∧
      RecsAuto action bid n rs restPairs (autoIndex + 1)
  | _, _, _ => False

/-- The sub-block a branch node carries. -/
def Node.branchBlock : Node → Option BlockId
  | .ifBranch _ blkId _ _ => some blkId
  | _ => none

/-- A branch body that keeps the surrounding frame: on success it
preserves the stack below the top, the top block's identity, and only adds
to the block store; and from every state it succeeds with a node whose
`ifOutputs` succeed (source rule bodies do). -/
def BodyOk (eff : ExprEff) : Prop :=
  (∀ s n s', eff s = .ok (n, s') →
    s'.stack.tail = s.stack.tail ∧ headId s' = headId s ∧
    ∃ pre, s'.blockStore = pre ++ s.blockStore) ∧
  (∀ s, ∃ n s' outs, eff s = .ok (n, s') ∧ ifOutputs n = .ok outs)

/-- The branch nodes produced for a branch list, starting at node counter
`k` of block `bid0`: branch `i` is an `ifBranch` with node id `k + 2i + 1`
over its own sub-block `bid0|sub(k + 2i)`, carrying its body's `ifOutputs`
as outputs and its syntactic exclusivity flag. -/
def BranchesOk (bid0 : BlockId) : Nat → List Node → List RestBranch → Prop
  | _, [], [] => True
  | k, n :: ns, rb :: rbs =>
      (∃ e s1 s2 outs,
        rb.body s1 = .ok (e, s2) ∧ ifOutputs e = .ok outs ∧
        n = Node.ifBranch ⟨bid0, k + 1⟩ (BlockId.sub bid0 k) outs rb.exclusive) ∧
      BranchesOk bid0 (k + 2) ns rbs
  | _, _, _ => False

/-!
## C8: string escape decoding
-/

/-- List induction that provides the hypothesis for both the one-step and
the two-step tail, as needed by the escape scanners. -/
theorem twoStepInduction (P : List Char → Prop) (h0 : P []) (h1 : ∀ x, P [x])
    (h2 : ∀ x y rest, P rest → P (y :: rest) → P (x :: y :: rest)) :
    ∀ cs : List Char, P cs := by
  have key : ∀ n (cs : List Char), cs.length ≤ n → P cs := by
    intro n
    induction n with
    | zero =>
      intro cs h
      cases cs with
      | nil => exact h0
      | cons x rest => simp at h
    | succ n ih =>
      intro cs h
      match cs with
      | [] => exact h0
      | [x] => exact h1 x
      | x :: y :: rest =>
        have hr : rest.length ≤ n := by simp at h; omega
        have hyr : (y :: rest).length ≤ n := by simp at h ⊢; omega
        exact h2 x y rest (ih rest hr) (ih (y :: rest) hyr)
  intro cs
  exact key cs.length cs le_rfl

theorem jsReplaceEsc_cons_ne (c r x : Char) (l : List Char) (hx : x ≠ '\\') :
    jsReplaceEsc c r (x :: l) = x :: jsReplaceEsc c r l := by
  rw [jsReplaceEsc.eq_def]
  simp [hx]

theorem jsReplaceEsc_bs_nil (c r : Char) : jsReplaceEsc c r ['\\'] = ['\\'] := rfl

theorem jsReplaceEsc_bs_hit (c r : Char) (l : List Char) :
    jsReplaceEsc c r ('\\' :: c :: l) = r :: jsReplaceEsc c r l := by
  simp [jsReplaceEsc]

theorem jsReplaceEsc_bs_miss (c r c' : Char) (l : List Char) (h : c' ≠ c) :
    jsReplaceEsc c r ('\\' :: c' :: l) = '\\' :: jsReplaceEsc c r (c' :: l) := by
  simp [jsReplaceEsc, h]

theorem partialDecode_cons_ne (done : List Char) (x : Char) (l : List Char) (hx : x ≠ '\\') :
    partialDecode done (x :: l) = x :: partialDecode done l := by
  rw [partialDecode.eq_def]
  simp [hx]

theorem partialDecode_bs_nil (done : List Char) : partialDecode done ['\\'] = ['\\'] := rfl

theorem partialDecode_bs_mem (done : List Char) (c' : Char) (l : List Char) (h : c' ∈ done) :
    partialDecode done ('\\' :: c' :: l) = escOut c' :: partialDecode done l := by
  simp [partialDecode, h]

theorem partialDecode_bs_notmem (done : List Char) (c' : Char) (l : List Char) (h : c' ∉ done) :
    partialDecode done ('\\' :: c' :: l) = '\\' :: c' :: partialDecode done l := by
  simp [partialDecode, h]

theorem noDoubleBS_two (x y : Char) (rest : List Char) (h : noDoubleBS (x :: y :: rest) = true) :
    noDoubleBS (y :: rest) = true ∧ noDoubleBS rest = true ∧ ¬(x = '\\' ∧ y = '\\') := by
  by_cases hx : x = '\\'
  · by_cases hy : y = '\\'
    · subst hx; subst hy; simp [noDoubleBS] at h
    · subst hx
      have h1 : noDoubleBS ('\\' :: y :: rest) = noDoubleBS (y :: rest) := by
        conv_lhs => unfold noDoubleBS
        split
        · rename_i heq; rw [List.cons.injEq, List.cons.injEq] at heq
          exact absurd heq.2.1 hy
        · rename_i l heq; rw [List.cons.injEq] at heq; rw [heq.2]
        · rename_i heq; simp at heq
      rw [h1] at h
      refine ⟨h, ?_, by simp [hy]⟩
      by_cases hy2 : ∃ z zs, rest = z :: zs
      · obtain ⟨z, zs, rfl⟩ := hy2
        exact (noDoubleBS_two y z zs h).1
      · cases rest with
        | nil => rfl
        | cons z zs => exact absurd ⟨z, zs, rfl⟩ hy2
  · have h1 : noDoubleBS (x :: y :: rest) = noDoubleBS (y :: rest) := by
      conv_lhs => unfold noDoubleBS
      split
      · rename_i heq; rw [List.cons.injEq] at heq
        exact absurd heq.1 hx
      · rename_i l heq; rw [List.cons.injEq] at heq; rw [heq.2]
      · rename_i heq; simp at heq
    rw [h1] at h
    refine ⟨h, ?_, by simp [hx]⟩
    cases rest with
    | nil => rfl
    | cons z zs => exact (noDoubleBS_two y z zs h).1

theorem sixDecode_not_bs : ∀ c d : Char, sixDecode c = some d → d ≠ '\\' := by
  intro c d h
  unfold sixDecode at h
  split_ifs at h <;> (injection h with h; subst h; decide)

theorem sixDecode_bs : sixDecode '\\' = none := by decide

/-- The key step: one global replace of the escape `\c` on a
partially-decoded string (with no double backslashes) decodes exactly the
`\c` pairs and nothing else. -/
theorem jsReplaceEsc_partialDecode (c d : Char) (done : List Char)
    (hc : sixDecode c = some d) (hcd : c ∉ done)
    (hdone : ∀ x ∈ done, (sixDecode x).isSome = true) :
    ∀ cs : List Char, noDoubleBS cs = true →
      jsReplaceEsc c d (partialDecode done cs) = partialDecode (c :: done) cs := by
  have hcbs : c ≠ '\\' := by
    intro hceq; rw [hceq, sixDecode_bs] at hc; cases hc
  intro cs
  induction cs using twoStepInduction with
  | h0 => intro _; rfl
  | h1 x =>
    intro _
    by_cases hx : x = '\\'
    · subst hx
      rw [partialDecode_bs_nil, jsReplaceEsc_bs_nil, partialDecode_bs_nil]
    · rw [partialDecode_cons_ne done x [] hx, partialDecode_cons_ne (c :: done) x [] hx,
          jsReplaceEsc_cons_ne c d x _ hx]
      rfl
  | h2 x y rest ih1 ih2 =>
    intro hdbs
    obtain ⟨hyr, hr, hxy⟩ := noDoubleBS_two x y rest hdbs
    by_cases hx : x = '\\'
    · subst hx
      have hy : y ≠ '\\' := fun hy => hxy ⟨rfl, hy⟩
      by_cases hymem : y ∈ done
      · have hyout : (sixDecode y).isSome = true := hdone y hymem
        obtain ⟨dy, hdy⟩ := Option.isSome_iff_exists.mp hyout
        have houtbs : escOut y ≠ '\\' := by
          unfold escOut; rw [hdy]; exact sixDecode_not_bs y dy hdy
        rw [partialDecode_bs_mem done y rest hymem,
            partialDecode_bs_mem (c :: done) y rest (List.mem_cons_of_mem c hymem),
            jsReplaceEsc_cons_ne c d _ _ houtbs, ih1 hr]
      · by_cases hyc : y = c
        · subst hyc
          rw [partialDecode_bs_notmem done y rest hymem,
              partialDecode_bs_mem (y :: done) y rest (List.mem_cons_self y done),
              jsReplaceEsc_bs_hit, ih1 hr]
          have : escOut y = d := by unfold escOut; rw [hc]
          rw [this]
        · have hnotmem : y ∉ c :: done := by
            intro hmem
            rcases List.mem_cons.mp hmem with h | h
            · exact hyc h
            · exact hymem h
          rw [partialDecode_bs_notmem done y rest hymem,
              partialDecode_bs_notmem (c :: done) y rest hnotmem,
              jsReplaceEsc_bs_miss c d y _ hyc, jsReplaceEsc_cons_ne c d y _ hy, ih1 hr]
    · rw [partialDecode_cons_ne done x _ hx, partialDecode_cons_ne (c :: done) x _ hx,
          jsReplaceEsc_cons_ne c d x _ hx, ih2 hyr]

theorem partialDecode_empty : ∀ cs : List Char, partialDecode [] cs = cs := by
  intro cs
  induction cs using twoStepInduction with
  | h0 => rfl
  | h1 x =>
    by_cases hx : x = '\\'
    · subst hx; exact partialDecode_bs_nil []
    · rw [partialDecode_cons_ne [] x [] hx]; rfl
  | h2 x y rest ih1 ih2 =>
    by_cases hx : x = '\\'
    · subst hx
      rw [partialDecode_bs_notmem [] y rest (List.not_mem_nil y), ih1]
    · rw [partialDecode_cons_ne [] x _ hx, ih2]

/-- C8 (amended): on strings with no two consecutive backslashes,
`cleanString` is exactly the left-to-right escape decoder that decodes the
six designated sequences (to newline, tab, carriage return, quote and the
two braces, via `escOut`) and leaves every other backslash pair intact.
(Without that restriction the claim fails: the replaces are plain global
textual replaces, so a designated character after a double backslash is
still decoded — see the counterexample.) -/
theorem c8_cleanString_escapes (cs : List Char) (h : noDoubleBS cs = true) :
    cleanString cs = partialDecode sixChars cs ∧
    escOut 'n' = '\n' ∧ escOut 't' = '\t' ∧ escOut 'r' = '\r' ∧
    escOut '"' = '"' ∧ escOut '\x7b' = '\x7b' ∧ escOut '\x7d' = '\x7d' := by
  refine ⟨?_, by decide, by decide, by decide, by decide, by decide, by decide⟩
  have h1 : jsReplaceEsc 'n' '\n' cs = partialDecode ['n'] cs := by
    have step := jsReplaceEsc_partialDecode 'n' '\n' [] (by decide) (by decide)
      (by intro z hz; cases hz) cs h
    rwa [partialDecode_empty] at step
  have h2 : jsReplaceEsc 't' '\t' (partialDecode ['n'] cs) = partialDecode ['t', 'n'] cs :=
    jsReplaceEsc_partialDecode 't' '\t' ['n'] (by decide) (by decide) (by decide) cs h
  have h3 : jsReplaceEsc 'r' '\r' (partialDecode ['t', 'n'] cs) =
      partialDecode ['r', 't', 'n'] cs :=
    jsReplaceEsc_partialDecode 'r' '\r' ['t', 'n'] (by decide) (by decide) (by decide) cs h
  have h4 : jsReplaceEsc '"' '"' (partialDecode ['r', 't', 'n'] cs) =
      partialDecode ['"', 'r', 't', 'n'] cs :=
    jsReplaceEsc_partialDecode '"' '"' ['r', 't', 'n'] (by decide) (by decide) (by decide) cs h
  have h5 : jsReplaceEsc '\x7b' '\x7b' (partialDecode ['"', 'r', 't', 'n'] cs) =
      partialDecode ['\x7b', '"', 'r', 't', 'n'] cs :=
    jsReplaceEsc_partialDecode '\x7b' '\x7b' ['"', 'r', 't', 'n'] (by decide) (by decide)
      (by decide) cs h
  have h6 : jsReplaceEsc '\x7d' '\x7d' (partialDecode ['\x7b', '"', 'r', 't', 'n'] cs) =
      partialDecode ['\x7d', '\x7b', '"', 'r', 't', 'n'] cs :=
    jsReplaceEsc_partialDecode '\x7d' '\x7d' ['\x7b', '"', 'r', 't', 'n'] (by decide) (by decide)
      (by decide) cs h
  unfold cleanString
  rw [h1, h2, h3, h4, h5, h6]
  rfl

/-- C8 counterexample: in `\\n` the pair `\\` is *not* left intact — the
global replace of `\n` consumes the second backslash and the `n`, so the
result is a backslash followed by a newline instead of the unchanged
three characters the claim requires. -/
theorem c8_counterexample :
    cleanString ['\\', '\\', 'n'] = ['\\', '\n'] ∧
    cleanString ['\\', '\\', 'n'] ≠ ['\\', '\\', 'n'] := by
  decide

theorem c8_witness :
    cleanString ['a', '\\', 'n', 'b', '\\', 'q'] =
      partialDecode sixChars ['a', '\\', 'n', 'b', '\\', 'q'] ∧
    escOut 'n' = '\n' ∧ escOut 't' = '\t' ∧ escOut 'r' = '\r' ∧
    escOut '"' = '"' ∧ escOut '\x7b' = '\x7b' ∧ escOut '\x7d' = '\x7d' :=
  c8_cleanString_escapes ['a', '\\', 'n', 'b', '\\', 'q'] (by decide)

/-!
## C1: variable identity across a root block and its sub-blocks
-/

theorem toVariable_stack_length (x : String) (g : Bool) (s : PState) :
    (toVariable x g s).2.stack.length = s.stack.length := by
  unfold toVariable
  cases hstk : s.stack with
  | nil => simp [hstk]
  | cons b t =>
    cases hmem : aget ((s.lookups[b.lookupRef]?).getD []) x with
    | some w => simp [hstk, hmem]
    | none => simp [hstk, hmem]

/-- One safe op preserves: nonempty stack, the shared reference invariant,
the heap bound, and any existing binding in the shared lookup. -/
theorem runVOp_preserves (op : VOp) (r : Nat) (x : String) (v : Node) (s : PState)
    (hne : s.stack ≠ []) (href : allRef r s) (hlen : r < s.lookups.length)
    (hmem : aget (lookupAt s r) x = some v)
    (hpop : op = VOp.pop → 2 ≤ s.stack.length) :
    (runVOp op s).stack ≠ [] ∧ allRef r (runVOp op s) ∧
    r < (runVOp op s).lookups.length ∧
    aget (lookupAt (runVOp op s) r) x = some v ∧
    (runVOp op s).stack.length = vopDepth op s.stack.length := by
  cases hstk : s.stack with
  | nil => exact absurd hstk hne
  | cons b t =>
    have hbr : b.lookupRef = r := href b (by rw [hstk]; exact List.mem_cons_self b t)
    cases op with
    | toVar y g =>
      have hlk : (s.lookups[b.lookupRef]?).getD [] = lookupAt s r := by
        rw [hbr]; rfl
      cases hy : aget (lookupAt s r) y with
      | some w =>
        have heq : runVOp (VOp.toVar y g) s =
            { s with stack := { b with varsUsed := (y, w) :: b.varsUsed } :: t } := by
          simp only [runVOp, toVariable, hstk, hlk, hy]
        rw [heq]
        refine ⟨by simp, ?_, hlen, hmem, by simp [vopDepth, hstk]⟩
        intro b' hb'
        simp only [List.mem_cons] at hb'
        rcases hb' with hb' | hb'
        · rw [hb']; exact hbr
        · exact href b' (by rw [hstk]; exact List.mem_cons_of_mem b hb')
      | none =>
        have hyx : y ≠ x := by
          intro hyx; rw [hyx, hmem] at hy; cases hy
        have heq : runVOp (VOp.toVar y g) s =
            { s with
              stack := { b with nodeId := b.nodeId + 1,
                                varsUsed := (y, Node.varN ⟨b.id, b.nodeId⟩ y g false) :: b.varsUsed } :: t,
              lookups := s.lookups.set b.lookupRef
                ((y, Node.varN ⟨b.id, b.nodeId⟩ y g false) :: lookupAt s r) } := by
          simp only [runVOp, toVariable, hstk, hlk, hy]
        rw [heq]
        have hget : (s.lookups.set b.lookupRef
            ((y, Node.varN ⟨b.id, b.nodeId⟩ y g false) :: lookupAt s r))[r]? =
            some ((y, Node.varN ⟨b.id, b.nodeId⟩ y g false) :: lookupAt s r) := by
          rw [hbr]
          exact List.getElem?_set_eq_of_lt _ hlen
        refine ⟨by simp, ?_, ?_, ?_, by simp [vopDepth, hstk]⟩
        · intro b' hb'
          simp only [List.mem_cons] at hb'
          rcases hb' with hb' | hb'
          · rw [hb']; exact hbr
          · exact href b' (by rw [hstk]; exact List.mem_cons_of_mem b hb')
        · simpa using hlen
        · show aget (((s.lookups.set b.lookupRef _)[r]?).getD []) x = some v
          rw [hget]
          show aget ((y, _) :: lookupAt s r) x = some v
          unfold aget
          rw [if_neg hyx]
          exact hmem
    | push =>
      have heq : runVOp VOp.push s =
          { s with stack := (b.subBlock).1 :: (b.subBlock).2 :: t } := by
        simp only [runVOp, pushBlock, hstk]
      rw [heq]
      refine ⟨by simp, ?_, hlen, hmem, by simp [vopDepth, hstk]⟩
      intro b' hb'
      simp only [List.mem_cons] at hb'
      rcases hb' with hb' | hb' | hb'
      · rw [hb']; show b.lookupRef = r; exact hbr
      · rw [hb']; show b.lookupRef = r; exact hbr
      · exact href b' (by rw [hstk]; exact List.mem_cons_of_mem b hb')
    | pop =>
      have hlen2 : 2 ≤ s.stack.length := hpop rfl
      cases t with
      | nil => rw [hstk] at hlen2; simp at hlen2
      | cons b2 t2 =>
        have heq : runVOp VOp.pop s =
            { s with stack := b2 :: t2, blockStore := (b.id, b) :: s.blockStore } := by
          simp only [runVOp, popBlock, hstk]
        rw [heq]
        refine ⟨by simp, ?_, hlen, hmem, by simp [vopDepth, hstk]⟩
        intro b' hb'
        exact href b' (by rw [hstk]; exact List.mem_cons_of_mem b hb')

/-- A safe op sequence preserves the same invariants. -/
theorem runVOps_preserves (ops : List VOp) (r : Nat) (x : String) (v : Node) :
    ∀ s : PState, s.stack ≠ [] → allRef r s → r < s.lookups.length →
    aget (lookupAt s r) x = some v →
    vopsSafe ops s.stack.length = true →
    (runVOps ops s).stack ≠ [] ∧ allRef r (runVOps ops s) ∧
    r < (runVOps ops s).lookups.length ∧
    aget (lookupAt (runVOps ops s) r) x = some v := by
  induction ops with
  | nil => intro s h1 h2 h3 h4 _; exact ⟨h1, h2, h3, h4⟩
  | cons op rest ih =>
    intro s h1 h2 h3 h4 hsafe
    have hpop : op = VOp.pop → 2 ≤ s.stack.length := by
      intro hop
      rw [hop] at hsafe
      unfold vopsSafe at hsafe
      simp only [Bool.and_eq_true, decide_eq_true_eq] at hsafe
      exact hsafe.1
    obtain ⟨k1, k2, k3, k4, k5⟩ := runVOp_preserves op r x v s h1 h2 h3 h4 hpop
    have hsafe' : vopsSafe rest (runVOp op s).stack.length = true := by
      cases op with
      | toVar y g => rw [k5]; unfold vopsSafe at hsafe; exact hsafe
      | push => rw [k5]; unfold vopsSafe at hsafe; exact hsafe
      | pop =>
        rw [k5]
        unfold vopsSafe at hsafe
        simp only [Bool.and_eq_true] at hsafe
        exact hsafe.2
    show (runVOps (op :: rest) s).stack ≠ [] ∧ _
    unfold runVOps
    exact ih (runVOp op s) k1 k2 k3 k4 hsafe'

/-- C1: in a root block's tree, the *first* `toVariable(x, false)` call
(made from whichever block is current) allocates the variable node and
stores it in the shared `variableLookup` and in the current block's
`variables`; after any safe interleaving of further `toVariable` calls,
sub-block pushes and pops that never pops the root, a later
`toVariable(x, false)` — made from the root or from any nested sub-block —
returns that identical node. -/
theorem c1_toVariable_identity (s0 : PState) (r : Nat) (x : String) (ops : List VOp)
    (hne : s0.stack ≠ []) (href : allRef r s0) (hlen : r < s0.lookups.length)
    (hfresh : aget (lookupAt s0 r) x = none)
    (hsafe : vopsSafe ops s0.stack.length = true) :
    ∃ id : NodeId,
      (toVariable x false s0).1 = Node.varN id x false false ∧
      aget (lookupAt (toVariable x false s0).2 r) x = some ((toVariable x false s0).1) ∧
      aget (curVars (toVariable x false s0).2) x = some ((toVariable x false s0).1) ∧
      (toVariable x false (runVOps ops (toVariable x false s0).2)).1 =
        (toVariable x false s0).1 := by
  cases hstk : s0.stack with
  | nil => exact absurd hstk hne
  | cons b t =>
    have hbr : b.lookupRef = r := href b (by rw [hstk]; exact List.mem_cons_self b t)
    have hlk : (s0.lookups[b.lookupRef]?).getD [] = lookupAt s0 r := by
      rw [hbr]; rfl
    have heq : toVariable x false s0 =
        (Node.varN ⟨b.id, b.nodeId⟩ x false false,
         { s0 with
           stack := { b with nodeId := b.nodeId + 1,
                             varsUsed := (x, Node.varN ⟨b.id, b.nodeId⟩ x false false) :: b.varsUsed } :: t,
           lookups := s0.lookups.set b.lookupRef
             ((x, Node.varN ⟨b.id, b.nodeId⟩ x false false) :: lookupAt s0 r) }) := by
      simp only [toVariable, hstk, hlk, hfresh]
    refine ⟨⟨b.id, b.nodeId⟩, by rw [heq], ?_, ?_, ?_⟩
    · rw [heq]
      show aget (((s0.lookups.set b.lookupRef _)[r]?).getD []) x = some _
      have hget : (s0.lookups.set b.lookupRef
          ((x, Node.varN ⟨b.id, b.nodeId⟩ x false false) :: lookupAt s0 r))[r]? =
          some ((x, Node.varN ⟨b.id, b.nodeId⟩ x false false) :: lookupAt s0 r) := by
        rw [hbr]
        exact List.getElem?_set_eq_of_lt _ hlen
      rw [hget]
      show aget ((x, _) :: lookupAt s0 r) x = _
      unfold aget
      rw [if_pos rfl]
    · rw [heq]
      show aget (curVars _) x = some _
      unfold curVars PState.cur
      show aget ((x, _) :: b.varsUsed) x = _
      unfold aget
      rw [if_pos rfl]
    · set v1 := Node.varN ⟨b.id, b.nodeId⟩ x false false with hv1
      set s1 := (toVariable x false s0).2 with hs1
      have hmem1 : aget (lookupAt s1 r) x = some v1 := by
        rw [hs1, heq]
        show aget (((s0.lookups.set b.lookupRef _)[r]?).getD []) x = some _
        have hget : (s0.lookups.set b.lookupRef
            ((x, v1) :: lookupAt s0 r))[r]? = some ((x, v1) :: lookupAt s0 r) := by
          rw [hbr]
          exact List.getElem?_set_eq_of_lt _ hlen
        rw [hget]
        show aget ((x, v1) :: lookupAt s0 r) x = _
        unfold aget
        rw [if_pos rfl]
      have hne1 : s1.stack ≠ [] := by
        rw [hs1, heq]; simp
      have href1 : allRef r s1 := by
        rw [hs1, heq]
        intro b' hb'
        simp only [List.mem_cons] at hb'
        rcases hb' with hb' | hb'
        · rw [hb']; exact hbr
        · exact href b' (by rw [hstk]; exact List.mem_cons_of_mem b hb')
      have hlen1 : r < s1.lookups.length := by
        rw [hs1, heq]; simpa using hlen
      have hsafe1 : vopsSafe ops s1.stack.length = true := by
        rw [hs1, toVariable_stack_length, hstk]
        rw [hstk] at hsafe
        exact hsafe
      obtain ⟨k1, k2, k3, k4⟩ := runVOps_preserves ops r x v1 s1 hne1 href1 hlen1 hmem1 hsafe1
      set s2 := runVOps ops s1 with hs2
      cases hstk2 : s2.stack with
      | nil => exact absurd hstk2 k1
      | cons b2 t2 =>
        have hbr2 : b2.lookupRef = r := k2 b2 (by rw [hstk2]; exact List.mem_cons_self b2 t2)
        have hlk2 : (s2.lookups[b2.lookupRef]?).getD [] = lookupAt s2 r := by
          rw [hbr2]; rfl
        rw [hv1] at k4
        conv_rhs => rw [heq]
        simp only [toVariable, hstk2, hlk2, k4]

/-!
## Equation lemmas for the state primitives (used by the remaining claims)
-/

theorem toVariable_fresh_eq (x : String) (g : Bool) (s : PState) (b : Block) (t : List Block)
    (hstk : s.stack = b :: t)
    (hfresh : aget ((s.lookups[b.lookupRef]?).getD []) x = none) :
    toVariable x g s =
      (Node.varN ⟨b.id, b.nodeId⟩ x g false,
       { s with
         stack := { b with nodeId := b.nodeId + 1,
                           varsUsed := (x, Node.varN ⟨b.id, b.nodeId⟩ x g false) :: b.varsUsed } :: t,
         lookups := s.lookups.set b.lookupRef
           ((x, Node.varN ⟨b.id, b.nodeId⟩ x g false) :: (s.lookups[b.lookupRef]?).getD []) }) := by
  simp only [toVariable, hstk, hfresh]

theorem toVariable_found_eq (x : String) (g : Bool) (s : PState) (b : Block) (t : List Block)
    (v : Node) (hstk : s.stack = b :: t)
    (hmem : aget ((s.lookups[b.lookupRef]?).getD []) x = some v) :
    toVariable x g s =
      (v, { s with stack := { b with varsUsed := (x, v) :: b.varsUsed } :: t }) := by
  simp only [toVariable, hstk, hmem]

theorem curLookup_eq (s : PState) (b : Block) (t : List Block) (hstk : s.stack = b :: t) :
    curLookup s = (s.lookups[b.lookupRef]?).getD [] := by
  unfold curLookup PState.cur
  rw [hstk]
  rfl

theorem stNextId_eq (s : PState) (b : Block) (t : List Block) (hstk : s.stack = b :: t) :
    stNextId s = (⟨b.id, b.nodeId⟩, { s with stack := { b with nodeId := b.nodeId + 1 } :: t }) := by
  unfold stNextId
  rw [hstk]

theorem stEquality_eq (a c : Node) (s : PState) (b : Block) (t : List Block)
    (hstk : s.stack = b :: t) :
    stEquality a c s = { s with stack := { b with equalities := b.equalities ++ [(a, c)] } :: t } := by
  unfold stEquality onCur
  rw [hstk]

theorem stScan_eq (n : Node) (s : PState) (b : Block) (t : List Block)
    (hstk : s.stack = b :: t) :
    stScan n s = { s with stack := { b with scanLike := b.scanLike ++ [n] } :: t } := by
  unfold stScan onCur
  rw [hstk]

theorem stExpression_eq (n : Node) (s : PState) (b : Block) (t : List Block)
    (hstk : s.stack = b :: t) :
    stExpression n s = { s with stack := { b with expressions := b.expressions ++ [n] } :: t } := by
  unfold stExpression onCur
  rw [hstk]

theorem curEqualities_mk (s : PState) (b : Block) (t : List Block) (hstk : s.stack = b :: t) :
    curEqualities s = b.equalities := by
  unfold curEqualities PState.cur
  rw [hstk]
  rfl

theorem curScanLike_mk (s : PState) (b : Block) (t : List Block) (hstk : s.stack = b :: t) :
    curScanLike s = b.scanLike := by
  unfold curScanLike PState.cur
  rw [hstk]
  rfl

theorem curExpressions_mk (s : PState) (b : Block) (t : List Block) (hstk : s.stack = b :: t) :
    curExpressions s = b.expressions := by
  unfold curExpressions PState.cur
  rw [hstk]
  rfl

theorem curVars_mk (s : PState) (b : Block) (t : List Block) (hstk : s.stack = b :: t) :
    curVars s = b.varsUsed := by
  unfold curVars PState.cur
  rw [hstk]
  rfl

/-- `aget = none` means no entry with that key, so a key-guarded map is the
identity. -/
theorem aget_none_map_id {α : Type} (l : List (String × α)) (k : String) (f : α → α)
    (h : aget l k = none) :
    l.map (fun p => if p.1 = k then (p.1, f p.2) else p) = l := by
  induction l with
  | nil => rfl
  | cons p rest ih =>
    unfold aget at h
    by_cases hk : p.1 = k
    · rw [if_pos hk] at h; cases h
    · rw [if_neg hk] at h
      simp only [List.map_cons, if_neg hk, ih h]

theorem c1_witness :
    ∃ id : NodeId,
      (toVariable "x" false (pushBlock (some "b0") {})).1 = Node.varN id "x" false false ∧
      aget (lookupAt (toVariable "x" false (pushBlock (some "b0") {})).2 0) "x" =
        some ((toVariable "x" false (pushBlock (some "b0") {})).1) ∧
      aget (curVars (toVariable "x" false (pushBlock (some "b0") {})).2) "x" =
        some ((toVariable "x" false (pushBlock (some "b0") {})).1) ∧
      (toVariable "x" false
          (runVOps [VOp.push, VOp.toVar "y" false, VOp.pop]
            (toVariable "x" false (pushBlock (some "b0") {})).2)).1 =
        (toVariable "x" false (pushBlock (some "b0") {})).1 :=
  c1_toVariable_identity (pushBlock (some "b0") {}) 0 "x"
    [VOp.push, VOp.toVar "y" false, VOp.pop]
    (by simp [pushBlock]) (by intro b hb; simp [pushBlock] at hb; rw [hb])
    (by simp [pushBlock]) (by simp [pushBlock, lookupAt, aget]) (by decide)

/-!
## C5: `v.attr <- [..]` — the merge scan's attribute constant
-/

/-- C5 (code-bug evidence): for `v.attr <- [ ]` the emitted scan's entity
is the mutator's parent (`v`) and its value is the fresh generated
variable `attr|3|3`, and the merging record is bound to that variable
with action `"<-"` — but the scan's attribute constant carries
`undefined` (the source reads `attribute.name`, a property the token does
not have), not the attribute token's text `"attr"`. -/
theorem c5_merge_scan_attribute_undefined :
    c5scanFacts = some ("v", EValue.undef, "attr|3|3", false) ∧
    EValue.undef ≠ EValue.str "attr" ∧
    c5recFacts = some ("<-", "attr|3|3", true) :=
  ⟨rfl, by decide, rfl⟩

/-!
## C9: stringInterpolation on the empty string
-/

/-- C9: with no string parts (the empty string literal `""`),
`stringInterpolation` does not return a constant node: it emits a
`concat` expression with an empty argument list, bound to a fresh
generated `concat|line|col` variable, and appends that expression to the
current block's expressions. -/
theorem c9_empty_string_concat (start : Token) (s : PState) (b : Block) (t : List Block)
    (hstk : s.stack = b :: t)
    (hfresh : aget (curLookup s) (posName "concat" start) = none) :
    ∃ e s', stringInterpolationRule start [] s = .ok (e, s') ∧
      (∃ id vid, e = Node.expr id "concat" []
        (some (Node.varN vid (posName "concat" start) true false))) ∧
      e.isConstant = false ∧
      curExpressions s' = curExpressions s ++ [e] := by
  rw [curLookup_eq s b t hstk] at hfresh
  have htv := toVariable_fresh_eq (posName "concat" start) true s b t hstk hfresh
  set v := Node.varN ⟨b.id, b.nodeId⟩ (posName "concat" start) true false with hv
  set e := Node.expr ⟨b.id, b.nodeId + 1⟩ "concat" [] (some v) with he
  set bmid : Block :=
    { b with nodeId := b.nodeId + 1,
             varsUsed := (posName "concat" start, v) :: b.varsUsed } with hbmid
  set sfin : PState :=
    { s with
      stack := { bmid with nodeId := bmid.nodeId + 1,
                           expressions := bmid.expressions ++ [e] } :: t,
      lookups := s.lookups.set b.lookupRef
        ((posName "concat" start, v) :: (s.lookups[b.lookupRef]?).getD []) } with hsfin
  have hrun : stringInterpolationRule start [] s = .ok (e, sfin) := by
    simp only [stringInterpolationRule, strPartsLoop, mkConcatExpr, htv, bind, Except.bind,
      stNextId, stExpression, onCur, hbmid, hsfin, he, hv]
  refine ⟨e, sfin, hrun, ⟨⟨b.id, b.nodeId + 1⟩, ⟨b.id, b.nodeId⟩, rfl⟩, rfl, ?_⟩
  rw [curExpressions_mk s b t hstk, hsfin]
  rw [curExpressions_mk _ _ t rfl]

/-!
## C4: which records carry a nonProjecting identity variable
-/

/-- `record` with `noVar = false` (fresh position name): the returned
record carries the freshly generated identity variable, marked
`nonProjecting`. -/
theorem recordRule_var_result (start : Token) (blockKey : BlockKey) (action : Option String)
    (items : List RecItem) (s : PState) (b : Block) (t : List Block)
    (hstk : s.stack = b :: t)
    (hfresh : aget (curLookup s) (recName start) = none) :
    (recordRule start false blockKey action items s).1 =
      Node.record ⟨b.id, b.nodeId⟩ (applyPipeFlags false items) action
        (some (Node.varN ⟨b.id, b.nodeId + 1⟩ (recName start) true true)) false
        s.activeScopes := by
  rw [curLookup_eq s b t hstk] at hfresh
  simp only [recordRule, stNextId, hstk, toVariable, hfresh, mutateVar, markNP, stByKey,
    stScan, stBind, stCommit, onCur]
  rfl

/-- A state whose stack is nonempty with known tail is a cons. -/
theorem stack_cons_of (s' : PState) (t : List Block)
    (hne : s'.stack ≠ []) (htl : s'.stack.tail = t) :
    ∃ b', s'.stack = b' :: t := by
  cases hh : s'.stack with
  | nil => exact absurd hh hne
  | cons b' t' =>
    rw [hh] at htl
    simp only [List.tail_cons] at htl
    subst htl
    exact ⟨b', rfl⟩

/-- The record rule leaves the stack's tail unchanged and the stack
nonempty. -/
theorem recordRule_stack_tail (start : Token) (noVar : Bool) (blockKey : BlockKey)
    (action : Option String) (items : List RecItem) (s : PState) (b : Block) (t : List Block)
    (hstk : s.stack = b :: t) :
    (recordRule start noVar blockKey action items s).2.stack.tail = t ∧
    (recordRule start noVar blockKey action items s).2.stack ≠ [] := by
  cases noVar with
  | true =>
    constructor <;> simp [recordRule, stNextId, hstk]
  | false =>
    cases hm : aget ((s.lookups[b.lookupRef]?).getD []) (recName start) with
    | some w =>
      cases blockKey with
      | scan =>
        constructor <;>
          simp [recordRule, stNextId, hstk, toVariable, hm, mutateVar, stByKey, stScan, onCur]
      | bind =>
        constructor <;>
          simp [recordRule, stNextId, hstk, toVariable, hm, mutateVar, stByKey, stBind, onCur]
      | commit =>
        constructor <;>
          simp [recordRule, stNextId, hstk, toVariable, hm, mutateVar, stByKey, stCommit, onCur]
    | none =>
      cases blockKey with
      | scan =>
        constructor <;>
          simp [recordRule, stNextId, hstk, toVariable, hm, mutateVar, stByKey, stScan, onCur]
      | bind =>
        constructor <;>
          simp [recordRule, stNextId, hstk, toVariable, hm, mutateVar, stByKey, stBind, onCur]
      | commit =>
        constructor <;>
          simp [recordRule, stNextId, hstk, toVariable, hm, mutateVar, stByKey, stCommit, onCur]

/-- The record rule leaves the stack's tail unchanged. -/
theorem recordRule_stack_cons (start : Token) (noVar : Bool) (blockKey : BlockKey)
    (action : Option String) (items : List RecItem) (s : PState) (b : Block) (t : List Block)
    (hstk : s.stack = b :: t) :
    ∃ bfin, (recordRule start noVar blockKey action items s).2.stack = bfin :: t := by
  obtain ⟨h1, h2⟩ := recordRule_stack_tail start noVar blockKey action items s b t hstk
  exact stack_cons_of _ t h2 h1

/-- `v = [..]` in an action section: the stored record is bound to the
surface variable, which is neither generated nor nonProjecting, and the
record is appended via the section's action key. -/
theorem actionEqualityRecord_result (varTok eqTok recStart : Token) (items : List RecItem)
    (actionKey : BlockKey) (s : PState) (b : Block) (t : List Block)
    (hstk : s.stack = b :: t)
    (hfresh : aget (curLookup s) varTok.image = none) :
    (actionEqualityRecordRule varTok eqTok recStart items actionKey s).1.varOf =
      some (Node.varN ⟨b.id, b.nodeId⟩ varTok.image false false) ∧
    curByKey actionKey (actionEqualityRecordRule varTok eqTok recStart items actionKey s).2 =
      curByKey actionKey s ++
        [(actionEqualityRecordRule varTok eqTok recStart items actionKey s).1] := by
  rw [curLookup_eq s b t hstk] at hfresh
  cases actionKey with
  | scan =>
    constructor
    · simp [actionEqualityRecordRule, variableRule, toVariable, stNextId, hstk, hfresh,
        recordRule, stByKey, stScan, onCur, Node.varOf]
    · simp [actionEqualityRecordRule, variableRule, toVariable, stNextId, hstk, hfresh,
        recordRule, stByKey, stScan, onCur, curByKey, PState.cur]
  | bind =>
    constructor
    · simp [actionEqualityRecordRule, variableRule, toVariable, stNextId, hstk, hfresh,
        recordRule, stByKey, stBind, onCur, Node.varOf]
    · simp [actionEqualityRecordRule, variableRule, toVariable, stNextId, hstk, hfresh,
        recordRule, stByKey, stBind, onCur, curByKey, PState.cur]
  | commit =>
    constructor
    · simp [actionEqualityRecordRule, variableRule, toVariable, stNextId, hstk, hfresh,
        recordRule, stByKey, stCommit, onCur, Node.varOf]
    · simp [actionEqualityRecordRule, variableRule, toVariable, stNextId, hstk, hfresh,
        recordRule, stByKey, stCommit, onCur, curByKey, PState.cur]

/-- `v <- [..]`: the returned record is bound to the surface variable, but
that variable is marked nonProjecting; the record has `needsEntity` and
action `"<-"`. -/
theorem recordOperationMerge_result (varTok recStart : Token) (items : List RecItem)
    (s : PState) (b : Block) (t : List Block) (hstk : s.stack = b :: t)
    (hfresh : aget (curLookup s) varTok.image = none) :
    (recordOperationMerge varTok recStart items s).1.varOf =
      some (Node.varN ⟨b.id, b.nodeId⟩ varTok.image false true) ∧
    (recordOperationMerge varTok recStart items s).1.recActionOf = some "<-" ∧
    (recordOperationMerge varTok recStart items s).1.needsEntityOf = true := by
  rw [curLookup_eq s b t hstk] at hfresh
  refine ⟨?_, ?_, ?_⟩ <;>
    simp [recordOperationMerge, variableRule, toVariable, stNextId, hstk, hfresh,
      recordRule, mutateVar, markNP, Node.varOf, Node.recActionOf, Node.needsEntityOf]

/-- `v.attr <- [..]`: the full lowering — the generated `attr|line|col`
value variable (not nonProjecting), the scan of the mutator's parent
whose attribute constant carries the token's (undefined) `name` property,
and the returned merging record bound to the value variable with action
`"<-"`. -/
theorem attributeOperationMerge_result (mid : NodeId) (attrTok : Token) (parentN : Node)
    (recStart : Token) (items : List RecItem) (s : PState) (b : Block) (t : List Block)
    (hstk : s.stack = b :: t)
    (hfresh : aget (curLookup s) (attrPosName attrTok) = none) :
    attributeOperationMerge (Node.attrMutator mid attrTok parentN) recStart items s =
      .ok (Node.record ⟨b.id, b.nodeId + 3⟩ (applyPipeFlags false items) (some "<-")
            (some (Node.varN ⟨b.id, b.nodeId⟩ (attrPosName attrTok) true false)) false
            s.activeScopes,
           { s with
             stack := { b with
               nodeId := b.nodeId + 4,
               varsUsed := (attrPosName attrTok,
                 Node.varN ⟨b.id, b.nodeId⟩ (attrPosName attrTok) true false) :: b.varsUsed,
               scanLike := b.scanLike ++
                 [Node.scanN ⟨b.id, b.nodeId + 2⟩ parentN
                   (Node.constant ⟨b.id, b.nodeId + 1⟩ EValue.undef)
                   (Node.varN ⟨b.id, b.nodeId⟩ (attrPosName attrTok) true false) false
                   s.activeScopes] } :: t,
             lookups := s.lookups.set b.lookupRef
               ((attrPosName attrTok,
                 Node.varN ⟨b.id, b.nodeId⟩ (attrPosName attrTok) true false) ::
                 (s.lookups[b.lookupRef]?).getD []) }) := by
  rw [curLookup_eq s b t hstk] at hfresh
  simp [attributeOperationMerge, toVariable, hstk, hfresh, stNextId, stScan, onCur,
    recordRule, Token.nameProp]

/-- A match-section equality `v = [..]`: the equality is recorded between
the left value and the record's *generated nonProjecting* identity
variable (the record keeps that variable; the surface binding is only an
equality). -/
theorem matchEquality_record_result (recStart eqTok : Token) (blockKey : BlockKey)
    (action : Option String) (items : List RecItem) (s : PState) (b : Block) (t : List Block)
    (lv lvv : Node) (hstk : s.stack = b :: t)
    (hfresh : aget (curLookup s) (recName recStart) = none)
    (hlv : asValue lv = .ok lvv) (hlp : lv.isParen = false) :
    ∃ res s2,
      comparisonRule false lv
        [(CompTok.eq eqTok, (recordRule recStart false blockKey action items s).1)]
        (recordRule recStart false blockKey action items s).2 = .ok (res, s2) ∧
      curEqualities s2 =
        curEqualities (recordRule recStart false blockKey action items s).2 ++
          [(lvv, Node.varN ⟨b.id, b.nodeId + 1⟩ (recName recStart) true true)] := by
  have hrec := recordRule_var_result recStart blockKey action items s b t hstk hfresh
  obtain ⟨bfin, hbf⟩ := recordRule_stack_cons recStart false blockKey action items s b t hstk
  set s1 := (recordRule recStart false blockKey action items s).2 with hs1
  set vNP := Node.varN ⟨b.id, b.nodeId + 1⟩ (recName recStart) true true with hvNP
  set bfin2 : Block :=
    { bfin with nodeId := bfin.nodeId + 1, equalities := bfin.equalities ++ [(lvv, vNP)] }
    with hbfin2
  refine ⟨Node.cmpNode ⟨bfin.id, bfin.nodeId⟩ [], { s1 with stack := bfin2 :: t }, ?_, ?_⟩
  · rw [hrec]
    have hrv : asValue (Node.record ⟨b.id, b.nodeId⟩ (applyPipeFlags false items) action
        (some vNP) false s.activeScopes) = .ok vNP := rfl
    simp [comparisonRule, cmpLoop, CompTok.isEquality, Node.isIfExpr, Node.isFuncRecord,
      hlp, hlv, hrv, bind, Except.bind, stEquality_eq _ _ s1 bfin t hbf, stNextId, hbfin2]
  · rw [curEqualities_mk _ bfin2 t rfl, curEqualities_mk s1 bfin t hbf, hbfin2]

/-- C4 counterexample: the record operation `v <- [ ]` binds the record
to the surface variable `v` (not generated), yet marks that variable
nonProjecting — contradicting the claim that a record bound to a surface
variable via `v <- [..]` does not carry a nonProjecting identity
variable. -/
theorem c4_counterexample :
    (c4run.varOf).map Node.varNonProjecting = some true ∧
    (c4run.varOf).map Node.varName = some "v" ∧
    (c4run.varOf).map Node.varGenerated = some false ∧
    c4run.recActionOf = some "<-" :=
  ⟨rfl, rfl, rfl, rfl⟩

/-- C4 (amended): an anonymous record carries a generated nonProjecting
identity variable; a record bound via `v = [..]` in an action section
carries the surface variable, not nonProjecting; but `v <- [..]` marks
the bound surface variable nonProjecting; `v.attr <- [..]` binds the
record to a generated value variable that is not nonProjecting; and a
match-section equality `v = [..]` leaves the record its generated
nonProjecting identity variable, binding `v` only through a recorded
equality. -/
theorem c4_record_binding_nonProjecting :
    (∀ (start : Token) (blockKey : BlockKey) (action : Option String) (items : List RecItem)
        (s : PState) (b : Block) (t : List Block),
      s.stack = b :: t → aget (curLookup s) (recName start) = none →
      (recordRule start false blockKey action items s).1.varOf =
        some (Node.varN ⟨b.id, b.nodeId + 1⟩ (recName start) true true)) ∧
    (∀ (varTok eqTok recStart : Token) (items : List RecItem) (actionKey : BlockKey)
        (s : PState) (b : Block) (t : List Block),
      s.stack = b :: t → aget (curLookup s) varTok.image = none →
      (actionEqualityRecordRule varTok eqTok recStart items actionKey s).1.varOf =
        some (Node.varN ⟨b.id, b.nodeId⟩ varTok.image false false) ∧
      curByKey actionKey (actionEqualityRecordRule varTok eqTok recStart items actionKey s).2 =
        curByKey actionKey s ++
          [(actionEqualityRecordRule varTok eqTok recStart items actionKey s).1]) ∧
    (∀ (varTok recStart : Token) (items : List RecItem) (s : PState) (b : Block)
        (t : List Block),
      s.stack = b :: t → aget (curLookup s) varTok.image = none →
      (recordOperationMerge varTok recStart items s).1.varOf =
        some (Node.varN ⟨b.id, b.nodeId⟩ varTok.image false true)) ∧
    (∀ (mid : NodeId) (attrTok : Token) (parentN : Node) (recStart : Token)
        (items : List RecItem) (s : PState) (b : Block) (t : List Block),
      s.stack = b :: t → aget (curLookup s) (attrPosName attrTok) = none →
      ∃ s', attributeOperationMerge (Node.attrMutator mid attrTok parentN) recStart items s =
        .ok (Node.record ⟨b.id, b.nodeId + 3⟩ (applyPipeFlags false items) (some "<-")
          (some (Node.varN ⟨b.id, b.nodeId⟩ (attrPosName attrTok) true false)) false
          s.activeScopes, s')) ∧
    (∀ (recStart eqTok : Token) (blockKey : BlockKey) (action : Option String)
        (items : List RecItem) (s : PState) (b : Block) (t : List Block) (lv lvv : Node),
      s.stack = b :: t → aget (curLookup s) (recName recStart) = none →
      asValue lv = .ok lvv → lv.isParen = false →
      ∃ res s2,
        comparisonRule false lv
          [(CompTok.eq eqTok, (recordRule recStart false blockKey action items s).1)]
          (recordRule recStart false blockKey action items s).2 = .ok (res, s2) ∧
        curEqualities s2 =
          curEqualities (recordRule recStart false blockKey action items s).2 ++
            [(lvv, Node.varN ⟨b.id, b.nodeId + 1⟩ (recName recStart) true true)]) := by
  refine ⟨?_, ?_, ?_, ?_, ?_⟩
  · intro start blockKey action items s b t hstk hfresh
    rw [recordRule_var_result start blockKey action items s b t hstk hfresh]
    rfl
  · intro varTok eqTok recStart items actionKey s b t hstk hfresh
    exact actionEqualityRecord_result varTok eqTok recStart items actionKey s b t hstk hfresh
  · intro varTok recStart items s b t hstk hfresh
    exact (recordOperationMerge_result varTok recStart items s b t hstk hfresh).1
  · intro mid attrTok parentN recStart items s b t hstk hfresh
    exact ⟨_,
      attributeOperationMerge_result mid attrTok parentN recStart items s b t hstk hfresh⟩
  · intro recStart eqTok blockKey action items s b t lv lvv hstk hfresh hlv hlp
    exact matchEquality_record_result recStart eqTok blockKey action items s b t lv lvv
      hstk hfresh hlv hlp

theorem c4_witness :
    ((recordRule ⟨"[", 1, 5⟩ false BlockKey.scan none [] (pushBlock (some "b0") {})).1.varOf =
      some (Node.varN ⟨BlockId.root "b0", 1⟩ (recName ⟨"[", 1, 5⟩) true true)) ∧
    ((actionEqualityRecordRule ⟨"v", 2, 1⟩ ⟨"=", 2, 3⟩ ⟨"[", 2, 5⟩ [] BlockKey.bind
        (pushBlock (some "b0") {})).1.varOf =
      some (Node.varN ⟨BlockId.root "b0", 0⟩ "v" false false) ∧
      curByKey BlockKey.bind (actionEqualityRecordRule ⟨"v", 2, 1⟩ ⟨"=", 2, 3⟩ ⟨"[", 2, 5⟩ []
          BlockKey.bind (pushBlock (some "b0") {})).2 =
        curByKey BlockKey.bind (pushBlock (some "b0") {}) ++
          [(actionEqualityRecordRule ⟨"v", 2, 1⟩ ⟨"=", 2, 3⟩ ⟨"[", 2, 5⟩ [] BlockKey.bind
            (pushBlock (some "b0") {})).1]) ∧
    ((recordOperationMerge ⟨"v", 3, 1⟩ ⟨"[", 3, 6⟩ [] (pushBlock (some "b0") {})).1.varOf =
      some (Node.varN ⟨BlockId.root "b0", 0⟩ "v" false true)) ∧
    (∃ s', attributeOperationMerge
        (Node.attrMutator ⟨BlockId.root "z", 0⟩ ⟨"attr", 4, 3⟩
          (Node.varN ⟨BlockId.root "z", 1⟩ "v" false false)) ⟨"[", 4, 11⟩ []
        (pushBlock (some "b0") {}) =
      .ok (Node.record ⟨BlockId.root "b0", 3⟩ (applyPipeFlags false []) (some "<-")
        (some (Node.varN ⟨BlockId.root "b0", 0⟩ (attrPosName ⟨"attr", 4, 3⟩) true false)) false
        (pushBlock (some "b0") ({} : PState)).activeScopes, s')) ∧
    (∃ res s2,
      comparisonRule false (Node.constant ⟨BlockId.root "z", 9⟩ (EValue.num 5))
        [(CompTok.eq ⟨"=", 5, 3⟩,
          (recordRule ⟨"[", 5, 5⟩ false BlockKey.scan none [] (pushBlock (some "b0") {})).1)]
        (recordRule ⟨"[", 5, 5⟩ false BlockKey.scan none [] (pushBlock (some "b0") {})).2 =
        .ok (res, s2) ∧
      curEqualities s2 =
        curEqualities (recordRule ⟨"[", 5, 5⟩ false BlockKey.scan none []
            (pushBlock (some "b0") {})).2 ++
          [(Node.constant ⟨BlockId.root "z", 9⟩ (EValue.num 5),
            Node.varN ⟨BlockId.root "b0", 1⟩ (recName ⟨"[", 5, 5⟩) true true)]) :=
  ⟨c4_record_binding_nonProjecting.1 ⟨"[", 1, 5⟩ BlockKey.scan none []
      (pushBlock (some "b0") {}) { id := .root "b0", lookupRef := 0 } [] rfl rfl,
   c4_record_binding_nonProjecting.2.1 ⟨"v", 2, 1⟩ ⟨"=", 2, 3⟩ ⟨"[", 2, 5⟩ [] BlockKey.bind
      (pushBlock (some "b0") {}) { id := .root "b0", lookupRef := 0 } [] rfl rfl,
   c4_record_binding_nonProjecting.2.2.1 ⟨"v", 3, 1⟩ ⟨"[", 3, 6⟩ []
      (pushBlock (some "b0") {}) { id := .root "b0", lookupRef := 0 } [] rfl rfl,
   c4_record_binding_nonProjecting.2.2.2.1 ⟨BlockId.root "z", 0⟩ ⟨"attr", 4, 3⟩
      (Node.varN ⟨BlockId.root "z", 1⟩ "v" false false) ⟨"[", 4, 11⟩ []
      (pushBlock (some "b0") {}) { id := .root "b0", lookupRef := 0 } [] rfl rfl,
   c4_record_binding_nonProjecting.2.2.2.2 ⟨"[", 5, 5⟩ ⟨"=", 5, 3⟩ BlockKey.scan none []
      (pushBlock (some "b0") {}) { id := .root "b0", lookupRef := 0 } []
      (Node.constant ⟨BlockId.root "z", 9⟩ (EValue.num 5))
      (Node.constant ⟨BlockId.root "z", 9⟩ (EValue.num 5)) rfl rfl rfl rfl⟩

/-!
## C10: when isExpression succeeds
-/

/-- If every element of `es` has a value, `mapM asValue` succeeds. -/
theorem mapM_asValue_ok (es : List Node) (h : ∀ e ∈ es, exOk (asValue e) = true) :
    ∃ vs, es.mapM asValue = .ok vs := by
  induction es with
  | nil => exact ⟨[], rfl⟩
  | cons e rest ih =>
    have he : exOk (asValue e) = true := h e (List.mem_cons_self e rest)
    obtain ⟨rs, hrs⟩ := ih (fun x hx => h x (List.mem_cons_of_mem e hx))
    cases hv : asValue e with
    | error msg => rw [hv] at he; cases he
    | ok v =>
      refine ⟨v :: rs, ?_⟩
      rw [List.mapM_cons, hv, hrs]
      rfl

/-- If every comparison result carries an `expressions` property whose
elements have values, the collection loop succeeds. -/
theorem collectIsArgs_ok (results : List Node)
    (h : ∀ r ∈ results, ∃ es, r.expressionsOf = some es ∧ ∀ e ∈ es, exOk (asValue e) = true) :
    ∃ args, collectIsArgs results = .ok args := by
  induction results with
  | nil => exact ⟨[], rfl⟩
  | cons r rest ih =>
    obtain ⟨es, hes, hall⟩ := h r (List.mem_cons_self r rest)
    obtain ⟨vs, hvs⟩ := mapM_asValue_ok es hall
    obtain ⟨more, hmore⟩ := ih (fun x hx => h x (List.mem_cons_of_mem r hx))
    refine ⟨vs ++ more, ?_⟩
    unfold collectIsArgs
    rw [hes]
    simp only [hvs, hmore]
    rfl

/-- If some comparison result has no `expressions` property, the
collection loop fails. -/
theorem collectIsArgs_err (results : List Node)
    (h : ∃ r ∈ results, r.expressionsOf = none) :
    exOk (collectIsArgs results) = false := by
  induction results with
  | nil => obtain ⟨r, hr, _⟩ := h; cases hr
  | cons r rest ih =>
    obtain ⟨r0, hr0, hnone⟩ := h
    rcases List.mem_cons.mp hr0 with heq | hmem
    · subst heq
      unfold collectIsArgs
      rw [hnone]
      rfl
    · unfold collectIsArgs
      cases hes : r.expressionsOf with
      | none => rfl
      | some es =>
        cases hvs : es.mapM asValue with
        | error msg => simp only [hvs]; rfl
        | ok vs =>
          have hrest := ih ⟨r0, hmem, hnone⟩
          cases hrec : collectIsArgs rest with
          | error msg => simp only [hvs, hrec]; rfl
          | ok args => rw [hrec] at hrest; cases hrest

/-- C10 (amended): `isExpression` succeeds and emits the `and` expression
whenever every inner comparison result carries an `expressions` property
— which happens when it consumed at least one comparison or equality
operator, *or* returned an `addition`/`multiplication` chain — and it
reaches an error whenever some inner comparison returned a plain operand
(no `expressions` property), as for `is(x)`. -/
theorem c10_isExpression_success (isTok : Token) (results : List Node) (s : PState)
    (b : Block) (t : List Block) (hstk : s.stack = b :: t)
    (hfresh : aget (curLookup s) (posName "is" isTok) = none) :
    ((∀ r ∈ results, ∃ es, r.expressionsOf = some es ∧ ∀ e ∈ es, exOk (asValue e) = true) →
      ∃ args s',
        collectIsArgs results = .ok args ∧
        isExpressionRule isTok results s =
          .ok (Node.expr ⟨b.id, b.nodeId + 1⟩ "and" args
            (some (Node.varN ⟨b.id, b.nodeId⟩ (posName "is" isTok) true false)), s') ∧
        curExpressions s' = curExpressions s ++
          [Node.expr ⟨b.id, b.nodeId + 1⟩ "and" args
            (some (Node.varN ⟨b.id, b.nodeId⟩ (posName "is" isTok) true false))]) ∧
    ((∃ r ∈ results, r.expressionsOf = none) →
      exOk (isExpressionRule isTok results s) = false) := by
  rw [curLookup_eq s b t hstk] at hfresh
  constructor
  · intro hall
    obtain ⟨args, hargs⟩ := collectIsArgs_ok results hall
    have htv := toVariable_fresh_eq (posName "is" isTok) true s b t hstk hfresh
    set v := Node.varN ⟨b.id, b.nodeId⟩ (posName "is" isTok) true false with hv
    set e := Node.expr ⟨b.id, b.nodeId + 1⟩ "and" args (some v) with he
    set bmid : Block :=
      { b with nodeId := b.nodeId + 1,
               varsUsed := (posName "is" isTok, v) :: b.varsUsed } with hbmid
    set sfin : PState :=
      { s with stack := { bmid with nodeId := bmid.nodeId + 1,
                                    expressions := bmid.expressions ++ [e] } :: t,
               lookups := s.lookups.set b.lookupRef
                 ((posName "is" isTok, v) :: (s.lookups[b.lookupRef]?).getD []) } with hsfin
    refine ⟨args, sfin, hargs, ?_, ?_⟩
    · simp only [isExpressionRule, hargs, bind, Except.bind, htv, stNextId, stExpression,
        onCur, hsfin, hbmid, he, hv]
    · rw [hsfin, curExpressions_mk s b t hstk, curExpressions_mk _ _ t rfl, hbmid]
  · intro hbad
    have herr := collectIsArgs_err results hbad
    cases hrec : collectIsArgs results with
    | error msg =>
      unfold isExpressionRule
      rw [hrec]
      rfl
    | ok args => rw [hrec] at herr; cases herr

/-- C10 counterexample: `is(x + 1)` — the inner comparison consumed *no*
comparison or equality operator (its operator list is empty and it
returns the addition node unchanged), yet `isExpression` succeeds,
refuting "succeeds only when every inner comparison consumed at least one
comparison or equality operator".  (`is(x)` with a bare operand does
reach an error — see the amended theorem's witness.) -/
theorem c10_counterexample :
    exOk c10run = true ∧
    (match c10addState with
     | .ok (addN, s) => comparisonRule true addN [] s = .ok (addN, s)
     | .error _ => False) :=
  ⟨rfl, rfl⟩

theorem c10_witness :
    ((∀ r ∈ [Node.cmpNode ⟨BlockId.root "z", 7⟩ []],
        ∃ es, r.expressionsOf = some es ∧ ∀ e ∈ es, exOk (asValue e) = true) →
      ∃ args s',
        collectIsArgs [Node.cmpNode ⟨BlockId.root "z", 7⟩ []] = .ok args ∧
        isExpressionRule ⟨"is", 1, 1⟩ [Node.cmpNode ⟨BlockId.root "z", 7⟩ []]
            (pushBlock (some "b0") {}) =
          .ok (Node.expr ⟨BlockId.root "b0", 1⟩ "and" args
            (some (Node.varN ⟨BlockId.root "b0", 0⟩ (posName "is" ⟨"is", 1, 1⟩) true false)),
            s') ∧
        curExpressions s' = curExpressions (pushBlock (some "b0") {}) ++
          [Node.expr ⟨BlockId.root "b0", 1⟩ "and" args
            (some (Node.varN ⟨BlockId.root "b0", 0⟩ (posName "is" ⟨"is", 1, 1⟩) true false))]) ∧
    ((∃ r ∈ [Node.cmpNode ⟨BlockId.root "z", 7⟩ []], r.expressionsOf = none) →
      exOk (isExpressionRule ⟨"is", 1, 1⟩ [Node.cmpNode ⟨BlockId.root "z", 7⟩ []]
        (pushBlock (some "b0") {})) = false) :=
  c10_isExpression_success ⟨"is", 1, 1⟩ [Node.cmpNode ⟨BlockId.root "z", 7⟩ []]
    (pushBlock (some "b0") {}) { id := .root "b0", lookupRef := 0 } [] rfl rfl

/-!
## C7: equality with a parenthesis on the left
-/

/-- C7: inside an equality pair whose left operand is a parenthesis node,
a right operand that is neither an ifExpression nor a functionRecord
raises the fatal error (the rule aborts, recording no equality); a
functionRecord right receives the parenthesis items' values as its
`returns` (the stored copy in the block's expressions is updated too) and
an equality between the first return and the function record's variable
is recorded. -/
theorem c7_parenthesis_equality (pid : NodeId) (itemsP : List Node) (eqTok : Token)
    (value : Node) (s : PState) (b : Block) (t : List Block)
    (hstk : s.stack = b :: t) :
    (value.isIfExpr = false → value.isFuncRecord = false →
      comparisonRule false (Node.paren pid itemsP) [(CompTok.eq eqTok, value)] s =
        .error "Left hand parenthesis without an if or function on the right") ∧
    (∀ (fid : NodeId) (op : String) (recN fvar : Node) (vals : List Node) (v0 : Node)
        (vrest : List Node) (r0v : Node),
      value = Node.funcRecord fid op recN fvar none →
      itemsP.mapM asValue = .ok vals → vals = v0 :: vrest → asValue v0 = .ok r0v →
      ∃ res s2,
        comparisonRule false (Node.paren pid itemsP) [(CompTok.eq eqTok, value)] s =
          .ok (res, s2) ∧
        curEqualities s2 = curEqualities s ++ [(r0v, fvar)] ∧
        curExpressions s2 = (curExpressions s).map
          (fun n => if n.idOf = fid then setReturns (v0 :: vrest) n else n)) := by
  constructor
  · intro hife hfr
    simp [comparisonRule, cmpLoop, CompTok.isEquality, hife, hfr, Node.isParen, bind,
      Except.bind]
  · intro fid op recN fvar vals v0 vrest r0v hval hmapm hvals hr0
    subst hval
    subst hvals
    have hfv : asValue (Node.funcRecord fid op recN fvar (some (v0 :: vrest))) = .ok fvar := rfl
    have hmapm2 : List.mapM.loop asValue itemsP [] = .ok (v0 :: vrest) := hmapm
    set g := fun (n : Node) => if n.idOf = fid then setReturns (v0 :: vrest) n else n with hg
    set bu : Block :=
      { b with scanLike := b.scanLike.map g,
               expressions := b.expressions.map g,
               binds := b.binds.map g,
               commits := b.commits.map g } with hbu
    set bfin : Block :=
      { bu with nodeId := bu.nodeId + 1,
                equalities := bu.equalities ++ [(r0v, fvar)] } with hbfin
    refine ⟨Node.cmpNode ⟨bu.id, bu.nodeId⟩ [], { s with stack := bfin :: t }, ?_, ?_, ?_⟩
    · simp [comparisonRule, cmpLoop, CompTok.isEquality, Node.isIfExpr, Node.isFuncRecord,
        Node.isParen, Node.parenItems, Node.idOf, hmapm, hmapm2, hr0, hfv, setReturns,
        updateStored, onCur, hstk, stEquality, stNextId, bind, Except.bind, hg, hbu, hbfin]
    · rw [curEqualities_mk _ bfin t rfl, curEqualities_mk s b t hstk, hbfin, hbu]
    · rw [curExpressions_mk _ bfin t rfl, curExpressions_mk s b t hstk, hbfin, hbu, hg]

theorem c7_witness :
    (comparisonRule false (Node.paren ⟨BlockId.root "z", 0⟩ [])
      [(CompTok.eq ⟨"=", 1, 3⟩, Node.constant ⟨BlockId.root "z", 1⟩ (EValue.num 5))]
      (pushBlock (some "b0") {}) =
      .error "Left hand parenthesis without an if or function on the right") ∧
    (∃ res s2,
      comparisonRule false
        (Node.paren ⟨BlockId.root "z", 0⟩ [Node.varN ⟨BlockId.root "z", 2⟩ "x" false false])
        [(CompTok.eq ⟨"=", 1, 3⟩,
          Node.funcRecord ⟨BlockId.root "z", 3⟩ "f"
            (Node.record ⟨BlockId.root "z", 4⟩ [] none none false [])
            (Node.varN ⟨BlockId.root "z", 5⟩ "return|1|5" true false) none)]
        (pushBlock (some "b0") {}) = .ok (res, s2) ∧
      curEqualities s2 = curEqualities (pushBlock (some "b0") {}) ++
        [(Node.varN ⟨BlockId.root "z", 2⟩ "x" false false,
          Node.varN ⟨BlockId.root "z", 5⟩ "return|1|5" true false)] ∧
      curExpressions s2 = (curExpressions (pushBlock (some "b0") {})).map
        (fun n => if n.idOf = ⟨BlockId.root "z", 3⟩ then
          setReturns [Node.varN ⟨BlockId.root "z", 2⟩ "x" false false] n else n)) :=
  ⟨(c7_parenthesis_equality ⟨BlockId.root "z", 0⟩ [] ⟨"=", 1, 3⟩
      (Node.constant ⟨BlockId.root "z", 1⟩ (EValue.num 5)) (pushBlock (some "b0") {})
      { id := .root "b0", lookupRef := 0 } [] rfl).1 rfl rfl,
   (c7_parenthesis_equality ⟨BlockId.root "z", 0⟩
      [Node.varN ⟨BlockId.root "z", 2⟩ "x" false false] ⟨"=", 1, 3⟩
      (Node.funcRecord ⟨BlockId.root "z", 3⟩ "f"
        (Node.record ⟨BlockId.root "z", 4⟩ [] none none false [])
        (Node.varN ⟨BlockId.root "z", 5⟩ "return|1|5" true false) none)
      (pushBlock (some "b0") {}) { id := .root "b0", lookupRef := 0 } [] rfl).2
     ⟨BlockId.root "z", 3⟩ "f" (Node.record ⟨BlockId.root "z", 4⟩ [] none none false [])
     (Node.varN ⟨BlockId.root "z", 5⟩ "return|1|5" true false)
     [Node.varN ⟨BlockId.root "z", 2⟩ "x" false false]
     (Node.varN ⟨BlockId.root "z", 2⟩ "x" false false) []
     (Node.varN ⟨BlockId.root "z", 2⟩ "x" false false) rfl rfl rfl rfl⟩

/-!
## C6: parseDoc accumulates all blocks' parse errors
-/

/-- C6 (spec-modelled): the errors returned by `parseDoc` are the
accumulator's initial contents followed by every block's errors in
order — in particular every error reported while parsing any block of the
document is in the returned list. -/
theorem c6_parseDoc_error_accumulation (docBlocks : List (List ParseError)) (p : ChevParser) :
    (parseDocModel docBlocks p).1 = p.errors ++ docBlocks.flatten ∧
    (∀ i es e, docBlocks.get? i = some es → e ∈ es → e ∈ (parseDocModel docBlocks p).1) := by
  have key : ∀ (dbs : List (List ParseError)) (q : ChevParser),
      (parseDocModel dbs q).1 = q.errors ++ dbs.flatten := by
    intro dbs
    induction dbs with
    | nil => intro q; simp [parseDocModel]
    | cons be rest ih =>
      intro q
      show (parseDocModel rest (parseBlockModel be q).2).1 = _
      rw [ih]
      simp [parseBlockModel, runCodeBlock]
  refine ⟨key docBlocks p, ?_⟩
  intro i es e hi he
  rw [key docBlocks p]
  refine List.mem_append_right _ ?_
  exact List.mem_flatten_of_mem (List.get?_mem hi) he

theorem c6_witness :
    ((parseDocModel [[⟨"err one"⟩], [], [⟨"err two"⟩, ⟨"err three"⟩]] { errors := [] }).1 =
      [] ++ [[ParseError.mk "err one"], [], [⟨"err two"⟩, ⟨"err three"⟩]].flatten ∧
      (∀ i es e, [[ParseError.mk "err one"], [], [⟨"err two"⟩, ⟨"err three"⟩]].get? i = some es →
        e ∈ es →
        e ∈ (parseDocModel [[⟨"err one"⟩], [], [⟨"err two"⟩, ⟨"err three"⟩]]
          { errors := [] }).1)) ∧
    ParseError.mk "err three" ∈
      (parseDocModel [[⟨"err one"⟩], [], [⟨"err two"⟩, ⟨"err three"⟩]] { errors := [] }).1 :=
  ⟨c6_parseDoc_error_accumulation [[⟨"err one"⟩], [], [⟨"err two"⟩, ⟨"err three"⟩]]
      { errors := [] },
   (c6_parseDoc_error_accumulation [[⟨"err one"⟩], [], [⟨"err two"⟩, ⟨"err three"⟩]]
      { errors := [] }).2 2 [⟨"err two"⟩, ⟨"err three"⟩] ⟨"err three"⟩ rfl
      (by simp)⟩

theorem c9_witness :
    ∃ e s', stringInterpolationRule ⟨"\"", 1, 1⟩ [] (pushBlock (some "b0") {}) = .ok (e, s') ∧
      (∃ id vid, e = Node.expr id "concat" []
        (some (Node.varN vid (posName "concat" ⟨"\"", 1, 1⟩) true false))) ∧
      e.isConstant = false ∧
      curExpressions s' = curExpressions (pushBlock (some "b0") {}) ++ [e] :=
  c9_empty_string_concat ⟨"\"", 1, 1⟩ (pushBlock (some "b0") {})
    { id := .root "b0", lookupRef := 0 } [] rfl rfl

/-!
## C3: auto-indexing of multi-record attribute equalities
-/

/-- An id-guarded map is the identity on a list none of whose nodes carry
the target id. -/
theorem map_guard_id (l : List Node) (rid : NodeId) (f : Node → Node)
    (h : ∀ nd ∈ l, nd.idOf ≠ rid) :
    l.map (fun n => if n.idOf = rid then f n else n) = l := by
  induction l with
  | nil => rfl
  | cons x xs ih =>
    rw [List.map_cons, if_neg (h x (List.mem_cons_self x xs)),
      ih fun nd hnd => h nd (List.mem_cons_of_mem x hnd)]

/-- Reconstruct the head block from the `headId`/tail observables. -/
theorem stack_cons_of_headId (s' : PState) (bid : BlockId) (t : List Block)
    (hhid : headId s' = some bid) (htl : s'.stack.tail = t) :
    ∃ b', s'.stack = b' :: t ∧ b'.id = bid ∧ b'.nodeId = headNodeCounter s' := by
  cases hh : s'.stack with
  | nil => simp [headId, hh] at hhid
  | cons b' t' =>
    have ht : t' = t := by rw [hh] at htl; simpa using htl
    subst ht
    refine ⟨b', rfl, ?_, ?_⟩
    · simp only [headId, hh, List.head?_cons, Option.map_some'] at hhid
      exact Option.some.inj hhid
    · simp [headNodeCounter, hh]

theorem curByKey_mk (k : BlockKey) (s : PState) (b : Block) (t : List Block)
    (hstk : s.stack = b :: t) :
    curByKey k s = b.byKey k := by
  cases k <;> simp [curByKey, Block.byKey, PState.cur, hstk]

/-- `autoIndexAttr` allocates the constant then the attribute node. -/
theorem autoIndexAttr_eq (i : Int) (s : PState) (b : Block) (t : List Block)
    (hstk : s.stack = b :: t) :
    autoIndexAttr i s =
      (Node.attrN ⟨b.id, b.nodeId + 1⟩ (EValue.str "eve-auto-index")
         (Node.constant ⟨b.id, b.nodeId⟩ (EValue.num i)) false,
       { s with stack := { b with nodeId := b.nodeId + 2 } :: t }) := by
  simp only [autoIndexAttr, stNextId, hstk]

/-- A record is exactly a node with an `attributes` property. -/
theorem recAttrsOf_record (R : Node) (as_ : List Node) (h : R.recAttrsOf = some as_) :
    ∃ id act v ne sc, R = Node.record id as_ act v ne sc := by
  cases R <;> simp [Node.recAttrsOf] at h
  case record id attrs act v ne sc =>
    exact ⟨id, act, v, ne, sc, by rw [h]⟩

/-- What `record` (without `noVar`) guarantees in any state: the stack
shape, the head block's identity and strictly bumped counter, the returned
record's id, attributes, action and bound variable, and the append of the
record to the `blockKey` list. -/
theorem recordRule_effect (start : Token) (blockKey : BlockKey) (action : Option String)
    (items : List RecItem) (s : PState) (b : Block) (t : List Block)
    (hstk : s.stack = b :: t) :
    (recordRule start false blockKey action items s).2.stack.tail = t ∧
    headId (recordRule start false blockKey action items s).2 = some b.id ∧
    b.nodeId < headNodeCounter (recordRule start false blockKey action items s).2 ∧
    (recordRule start false blockKey action items s).1.idOf = ⟨b.id, b.nodeId⟩ ∧
    (recordRule start false blockKey action items s).1.recAttrsOf =
      some (applyPipeFlags false items) ∧
    (recordRule start false blockKey action items s).1.recActionOf = action ∧
    ((recordRule start false blockKey action items s).1.varOf).isSome = true ∧
    curByKey blockKey (recordRule start false blockKey action items s).2 =
      curByKey blockKey s ++ [(recordRule start false blockKey action items s).1] := by
  cases hm : aget ((s.lookups[b.lookupRef]?).getD []) (recName start) with
  | none =>
    cases blockKey <;>
      (refine ⟨?_, ?_, ?_, ?_, ?_, ?_, ?_, ?_⟩ <;>
        simp [recordRule, stNextId, hstk, toVariable, hm, mutateVar, stByKey, stScan,
          stBind, stCommit, onCur, headId, headNodeCounter, curByKey, PState.cur,
          Node.idOf, Node.recAttrsOf, Node.recActionOf, Node.varOf, markNP]) <;>
      omega
  | some w =>
    cases blockKey <;>
      (refine ⟨?_, ?_, ?_, ?_, ?_, ?_, ?_, ?_⟩ <;>
        simp [recordRule, stNextId, hstk, toVariable, hm, mutateVar, stByKey, stScan,
          stBind, stCommit, onCur, headId, headNodeCounter, curByKey, PState.cur,
          Node.idOf, Node.recAttrsOf, Node.recActionOf, Node.varOf, markNP])

/-- `pushRecAttr` only rewrites the stored lists (by id), leaving the stack
shape and the node counter alone. -/
theorem pushRecAttr_facts (rid : NodeId) (a : Node) (s : PState) (b : Block)
    (t : List Block) (hstk : s.stack = b :: t) (k : BlockKey) :
    (pushRecAttr rid a s).stack.tail = t ∧
    headId (pushRecAttr rid a s) = some b.id ∧
    headNodeCounter (pushRecAttr rid a s) = b.nodeId ∧
    curByKey k (pushRecAttr rid a s) =
      (curByKey k s).map (fun n => if n.idOf = rid then recPushAttrLocal a n else n) := by
  cases k <;>
    (refine ⟨?_, ?_, ?_, ?_⟩ <;>
      simp [pushRecAttr, updateStored, onCur, hstk, headId, headNodeCounter, curByKey,
        PState.cur])

/-- One loop iteration of `attributeEquality` always succeeds and appends
exactly one record to the `blockKey` list — the parsed record with an
`eve-auto-index` attribute (constant `autoIndex`) appended after its own
attributes — leaving everything already stored untouched; the head block
keeps its id and strictly grows its counter. -/
theorem aeStep_effect (blockKey : BlockKey) (action : Option String) (key : EValue)
    (tok : Token) (items : List RecItem) (autoIndex : Int) (s : PState) (b : Block)
    (t : List Block) (hstk : s.stack = b :: t)
    (hwf : idsBelow b.id b.nodeId (curByKey blockKey s)) :
    ∃ a s' b' R',
      aeStep false blockKey action key tok items autoIndex s = .ok (a, s') ∧
      s'.stack = b' :: t ∧ b'.id = b.id ∧ b.nodeId < b'.nodeId ∧
      curByKey blockKey s' = curByKey blockKey s ++ [R'] ∧
      (∃ aid cid, R'.recAttrsOf = some (applyPipeFlags false items ++
        [Node.attrN aid (EValue.str "eve-auto-index")
          (Node.constant cid (EValue.num autoIndex)) false])) ∧
      R'.recActionOf = action ∧ R'.idOf = ⟨b.id, b.nodeId⟩ := by
  obtain ⟨h1, h2, h3, h4, h5, h6, h7, h8⟩ :=
    recordRule_effect tok blockKey action items s b t hstk
  rcases hrr : recordRule tok false blockKey action items s with ⟨R, s1⟩
  rw [hrr] at h1 h2 h3 h4 h5 h6 h7 h8
  have htail1 : s1.stack.tail = t := h1
  have hhid1 : headId s1 = some b.id := h2
  have hlt1 : b.nodeId < headNodeCounter s1 := h3
  have hido1 : R.idOf = ⟨b.id, b.nodeId⟩ := h4
  have hattrs1 : R.recAttrsOf = some (applyPipeFlags false items) := h5
  have hact1 : R.recActionOf = action := h6
  have hvs1 : (R.varOf).isSome = true := h7
  have hkey1 : curByKey blockKey s1 = curByKey blockKey s ++ [R] := h8
  obtain ⟨b1, hstk1, hb1id, hb1n⟩ := stack_cons_of_headId s1 b.id t hhid1 htail1
  have hbn1 : b.nodeId < b1.nodeId := by rw [hb1n]; exact hlt1
  obtain ⟨rid0, act0, v0, ne0, sc0, hR⟩ := recAttrsOf_record R _ hattrs1
  subst hR
  have hrid : rid0 = ⟨b.id, b.nodeId⟩ := hido1
  subst hrid
  have hvs1' : v0.isSome = true := hvs1
  obtain ⟨v, hv⟩ := Option.isSome_iff_exists.mp hvs1'
  subst hv
  have hval : asValue (Node.record ⟨b.id, b.nodeId⟩ (applyPipeFlags false items) act0
      (some v) ne0 sc0) = .ok v := rfl
  rcases hax : autoIndexAttr autoIndex s1 with ⟨ixA, s2⟩
  have hax2 := (autoIndexAttr_eq autoIndex s1 b1 t hstk1).symm.trans hax
  rw [Prod.mk.injEq] at hax2
  obtain ⟨hixA, hs2⟩ := hax2
  have hstk2 : s2.stack = { b1 with nodeId := b1.nodeId + 2 } :: t := by rw [← hs2]
  have hkey2 : curByKey blockKey s2 = curByKey blockKey s1 := by
    rw [curByKey_mk blockKey s2 _ t hstk2, curByKey_mk blockKey s1 b1 t hstk1]
    cases blockKey <;> rfl
  set s3 := pushRecAttr ⟨b.id, b.nodeId⟩ ixA s2 with hs3
  obtain ⟨q1, q2, q3, q4⟩ := pushRecAttr_facts ⟨b.id, b.nodeId⟩ ixA s2
    { b1 with nodeId := b1.nodeId + 2 } t hstk2 blockKey
  rw [← hs3] at q1 q2 q3 q4
  have hq2 : headId s3 = some b1.id := q2
  have hq3 : headNodeCounter s3 = b1.nodeId + 2 := q3
  obtain ⟨b3, hstk3, hb3id, hb3n⟩ := stack_cons_of_headId s3 b1.id t hq2 q1
  have hb3cnt : b3.nodeId = b1.nodeId + 2 := by rw [hb3n, hq3]
  have hpre : ∀ nd ∈ curByKey blockKey s, nd.idOf ≠ (⟨b.id, b.nodeId⟩ : NodeId) := by
    intro nd hnd hcon
    have hx := hwf nd hnd (by rw [hcon])
    rw [hcon] at hx
    exact absurd hx (Nat.lt_irrefl _)
  have hmap : curByKey blockKey s3 = curByKey blockKey s ++
      [Node.record ⟨b.id, b.nodeId⟩ (applyPipeFlags false items ++ [ixA]) act0 (some v)
        ne0 sc0] := by
    rw [q4, hkey2, hkey1, List.map_append, map_guard_id _ _ _ hpre]
    simp [Node.idOf, recPushAttrLocal]
  rcases hni : stNextId s3 with ⟨aid, s4⟩
  have hni2 := (stNextId_eq s3 b3 t hstk3).symm.trans hni
  rw [Prod.mk.injEq] at hni2
  obtain ⟨haid, hs4⟩ := hni2
  refine ⟨Node.attrN aid key v false, s4, { b3 with nodeId := b3.nodeId + 1 },
    Node.record ⟨b.id, b.nodeId⟩ (applyPipeFlags false items ++ [ixA]) act0 (some v)
      ne0 sc0, ?_, ?_, ?_, ?_, ?_, ?_, ?_, ?_⟩
  · simp only [aeStep, hrr, hax, Node.idOf, bind, Except.bind, hval]
    rw [← hs3]
    simp only [hni]
  · rw [← hs4]
  · show b3.id = b.id
    rw [hb3id, hb1id]
  · show b.nodeId < b3.nodeId + 1
    omega
  · rw [← hs4]
    have h54 : curByKey blockKey { s3 with stack := { b3 with nodeId := b3.nodeId + 1 } :: t } =
        curByKey blockKey s3 := by
      rw [curByKey_mk blockKey _ { b3 with nodeId := b3.nodeId + 1 } t rfl,
          curByKey_mk blockKey s3 b3 t hstk3]
      cases blockKey <;> rfl
    rw [h54, hmap]
  · exact ⟨⟨b1.id, b1.nodeId + 1⟩, ⟨b1.id, b1.nodeId⟩, by rw [hixA]; rfl⟩
  · exact hact1
  · rfl

/-- `RecsAuto` is antitone in the counter lower bound. -/
theorem RecsAuto_mono (action : Option String) (bid : BlockId) (n m : Nat) (hnm : n ≤ m) :
    ∀ (recs : List Node) (pairs : List (Token × List RecItem)) (autoIndex : Int),
      RecsAuto action bid m recs pairs autoIndex →
      RecsAuto action bid n recs pairs autoIndex := by
  intro recs
  induction recs with
  | nil =>
    intro pairs autoIndex h
    cases pairs with
    | nil => exact trivial
    | cons p ps => exact False.elim h
  | cons r rs ih =>
    intro pairs autoIndex h
    cases pairs with
    | nil => exact False.elim h
    | cons p ps =>
      obtain ⟨pt, pitems⟩ := p
      obtain ⟨⟨aid, cid, hA, hAct, hBlk, hLe⟩, hrest⟩ := h
      exact ⟨⟨aid, cid, hA, hAct, hBlk, Nat.le_trans hnm hLe⟩, ih ps (autoIndex + 1) hrest⟩

/-- `RecsAuto` pairs records and right-hand-side records one to one. -/
theorem RecsAuto_length (action : Option String) (bid : BlockId) (n : Nat) :
    ∀ (recs : List Node) (pairs : List (Token × List RecItem)) (autoIndex : Int),
      RecsAuto action bid n recs pairs autoIndex → recs.length = pairs.length := by
  intro recs
  induction recs with
  | nil =>
    intro pairs autoIndex h
    cases pairs with
    | nil => rfl
    | cons p ps => exact False.elim h
  | cons r rs ih =>
    intro pairs autoIndex h
    cases pairs with
    | nil => exact False.elim h
    | cons p ps =>
      obtain ⟨pt, pitems⟩ := p
      obtain ⟨_, hrest⟩ := h
      simp [ih ps (autoIndex + 1) hrest]

/-- Every record described by `RecsAuto` was allocated from block `bid` at
or after counter `n`. -/
theorem RecsAuto_mem (action : Option String) (bid : BlockId) (n : Nat) :
    ∀ (recs : List Node) (pairs : List (Token × List RecItem)) (autoIndex : Int),
      RecsAuto action bid n recs pairs autoIndex →
      ∀ nd ∈ recs, nd.idOf.block = bid ∧ n ≤ nd.idOf.n := by
  intro recs
  induction recs with
  | nil =>
    intro pairs autoIndex h nd hnd
    exact absurd hnd (List.not_mem_nil nd)
  | cons r rs ih =>
    intro pairs autoIndex h nd hnd
    cases pairs with
    | nil => exact False.elim h
    | cons p ps =>
      obtain ⟨pt, pitems⟩ := p
      obtain ⟨⟨aid, cid, hA, hAct, hBlk, hLe⟩, hrest⟩ := h
      rcases List.mem_cons.mp hnd with rfl | hnd'
      · exact ⟨hBlk, hLe⟩
      · exact ih ps (autoIndex + 1) hrest nd hnd'

/-- `attributeEquality`'s `MANY` loop: it succeeds, appends one record per
further right-hand-side record to the `blockKey` list (in source order,
leaving everything already stored untouched), and each appended record
carries its own attributes followed by `eve-auto-index` constants
`autoIndex + 1`, `autoIndex + 2`, …. -/
theorem aeLoop_spec (blockKey : BlockKey) (action : Option String) (key : EValue)
    (t : List Block) (pairs : List (Token × List RecItem)) :
    ∀ (autoIndex : Int) (sCur : PState) (bc : Block),
      sCur.stack = bc :: t →
      idsBelow bc.id bc.nodeId (curByKey blockKey sCur) →
      ∃ attrs sFin bfin newRecs,
        aeLoop false blockKey action key pairs autoIndex sCur = .ok (attrs, sFin) ∧
        sFin.stack = bfin :: t ∧ bfin.id = bc.id ∧ bc.nodeId ≤ bfin.nodeId ∧
        curByKey blockKey sFin = curByKey blockKey sCur ++ newRecs ∧
        RecsAuto action bc.id bc.nodeId newRecs pairs autoIndex := by
  induction pairs with
  | nil =>
    intro autoIndex sCur bc hstk hwf
    exact ⟨[], sCur, bc, [], rfl, hstk, rfl, Nat.le_refl _, by simp, trivial⟩
  | cons pr rest ih =>
    obtain ⟨tok, items⟩ := pr
    intro autoIndex sCur bc hstk hwf
    obtain ⟨a, s', b', R', hstep, hstk', hbid', hlt', hkey', hRattrs, hRact, hRid⟩ :=
      aeStep_effect blockKey action key tok items (autoIndex + 1) sCur bc t hstk hwf
    have hwf' : idsBelow b'.id b'.nodeId (curByKey blockKey s') := by
      rw [hkey']
      intro nd hnd hblk
      rcases List.mem_append.mp hnd with hmem | hmem
      · have hx := hwf nd hmem (by rw [hblk, hbid'])
        omega
      · have hnd' : nd = R' := by simpa using hmem
        rw [hnd', hRid]
        exact hlt'
    obtain ⟨more, sFin, bfin, newRecs, hloop, hstkF, hbidF, hleF, hkeyF, hrecsF⟩ :=
      ih (autoIndex + 1) s' b' hstk' hwf'
    refine ⟨a :: more, sFin, bfin, R' :: newRecs, ?_, hstkF, ?_, ?_, ?_, ?_⟩
    · simp only [aeLoop, hstep, hloop, bind, Except.bind]
    · rw [hbidF, hbid']
    · omega
    · rw [hkeyF, hkey']
      simp
    · refine ⟨?_, ?_⟩
      · obtain ⟨aid, cid, hA⟩ := hRattrs
        exact ⟨aid, cid, hA, hRact, by rw [hRid], by rw [hRid]⟩
      · rw [hbid'] at hrecsF
        exact RecsAuto_mono action bc.id bc.nodeId b'.nodeId (Nat.le_of_lt hlt')
          newRecs rest (autoIndex + 1) hrecsF

/-- C3: an attribute equality whose right-hand side is a sequence of
records appends one record per source record to the `blockKey` list; with
two or more records every record receives an `eve-auto-index` attribute
appended after its own attributes — the first record's carrying constant 1
and the further ones carrying 2, 3, … in source order (the first record's
index is appended only after the whole loop, i.e. only once a second
record has been seen) — while with a single record on the right no
`eve-auto-index` attribute is added to it. -/
theorem c3_attributeEquality_autoindex (attrTok : Token) (isNum : Bool) (blockKey : BlockKey)
    (action : Option String) (tok1 : Token) (items1 : List RecItem)
    (rest : List (Token × List RecItem)) (s : PState) (b : Block) (t : List Block)
    (hstk : s.stack = b :: t)
    (hwf : idsBelow b.id b.nodeId (curByKey blockKey s)) :
    ∃ attrs sFin R1 newRecs,
      attributeEqualityRule attrTok isNum false blockKey action
        (AttrEqRhs.records (tok1, items1) rest) s = .ok (attrs, sFin) ∧
      curByKey blockKey sFin = curByKey blockKey s ++ R1 :: newRecs ∧
      newRecs.length = rest.length ∧
      R1.idOf = ⟨b.id, b.nodeId⟩ ∧
      (rest = [] → R1.recAttrsOf = some (applyPipeFlags false items1)) ∧
      (rest ≠ [] →
        (∃ aid cid, R1.recAttrsOf = some (applyPipeFlags false items1 ++
          [Node.attrN aid (EValue.str "eve-auto-index")
            (Node.constant cid (EValue.num 1)) false])) ∧
        RecsAuto action b.id b.nodeId newRecs rest 1) := by
  obtain ⟨h1, h2, h3, h4, h5, h6, h7, h8⟩ :=
    recordRule_effect tok1 blockKey action items1 s b t hstk
  rcases hrr : recordRule tok1 false blockKey action items1 s with ⟨R1, s1⟩
  rw [hrr] at h1 h2 h3 h4 h5 h6 h7 h8
  have htail1 : s1.stack.tail = t := h1
  have hhid1 : headId s1 = some b.id := h2
  have hlt1 : b.nodeId < headNodeCounter s1 := h3
  have hido1 : R1.idOf = ⟨b.id, b.nodeId⟩ := h4
  have hattrs1 : R1.recAttrsOf = some (applyPipeFlags false items1) := h5
  have hvs1 : (R1.varOf).isSome = true := h7
  have hkey1 : curByKey blockKey s1 = curByKey blockKey s ++ [R1] := h8
  obtain ⟨b1, hstk1, hb1id, hb1n⟩ := stack_cons_of_headId s1 b.id t hhid1 htail1
  have hbn1 : b.nodeId < b1.nodeId := by rw [hb1n]; exact hlt1
  obtain ⟨rid0, act0, v0, ne0, sc0, hR⟩ := recAttrsOf_record R1 _ hattrs1
  subst hR
  have hrid : rid0 = ⟨b.id, b.nodeId⟩ := hido1
  subst hrid
  have hvs1' : v0.isSome = true := hvs1
  obtain ⟨v, hv⟩ := Option.isSome_iff_exists.mp hvs1'
  subst hv
  have hval : asValue (Node.record ⟨b.id, b.nodeId⟩ (applyPipeFlags false items1) act0
      (some v) ne0 sc0) = .ok v := rfl
  have hwf1 : idsBelow b1.id b1.nodeId (curByKey blockKey s1) := by
    rw [hkey1]
    intro nd hnd hblk
    rcases List.mem_append.mp hnd with hmem | hmem
    · have hx := hwf nd hmem (by rw [hblk, hb1id])
      omega
    · have hnd' : nd = Node.record ⟨b.id, b.nodeId⟩ (applyPipeFlags false items1) act0
          (some v) ne0 sc0 := by simpa using hmem
      rw [hnd']
      exact hbn1
  cases rest with
  | nil =>
    rcases hni : stNextId s1 with ⟨aid, sF⟩
    have hni2 := (stNextId_eq s1 b1 t hstk1).symm.trans hni
    rw [Prod.mk.injEq] at hni2
    obtain ⟨haid, hsF⟩ := hni2
    refine ⟨[Node.attrN aid (attrEqKey attrTok isNum) v false], sF,
      Node.record ⟨b.id, b.nodeId⟩ (applyPipeFlags false items1) act0 (some v) ne0 sc0, [],
      ?_, ?_, rfl, rfl, fun _ => rfl, fun hne => absurd rfl hne⟩
    · simp only [attributeEqualityRule, hrr, aeLoop, bind, Except.bind, hval,
        List.length_nil, ne_eq, not_true_eq_false, if_false, hni]
      rfl
    · rw [← hsF]
      have hx : curByKey blockKey { s1 with stack := { b1 with nodeId := b1.nodeId + 1 } :: t } =
          curByKey blockKey s1 := by
        rw [curByKey_mk blockKey _ { b1 with nodeId := b1.nodeId + 1 } t rfl,
            curByKey_mk blockKey s1 b1 t hstk1]
        cases blockKey <;> rfl
      rw [hx, hkey1]
  | cons p ps =>
    obtain ⟨lattrs, s2, b2, newRecs, hloop, hstk2, hb2id, hb2le, hkey2, hrecs⟩ :=
      aeLoop_spec blockKey action (attrEqKey attrTok isNum) t (p :: ps) 1 s1 b1 hstk1 hwf1
    rcases hax : autoIndexAttr 1 s2 with ⟨ixA, s3⟩
    have hax2 := (autoIndexAttr_eq 1 s2 b2 t hstk2).symm.trans hax
    rw [Prod.mk.injEq] at hax2
    obtain ⟨hixA, hs3⟩ := hax2
    have hstk3 : s3.stack = { b2 with nodeId := b2.nodeId + 2 } :: t := by rw [← hs3]
    have hkey3 : curByKey blockKey s3 = curByKey blockKey s2 := by
      rw [curByKey_mk blockKey s3 _ t hstk3, curByKey_mk blockKey s2 b2 t hstk2]
      cases blockKey <;> rfl
    set s4 := pushRecAttr ⟨b.id, b.nodeId⟩ ixA s3 with hs4
    obtain ⟨q1, q2, q3, q4⟩ := pushRecAttr_facts ⟨b.id, b.nodeId⟩ ixA s3
      { b2 with nodeId := b2.nodeId + 2 } t hstk3 blockKey
    rw [← hs4] at q1 q2 q3 q4
    have hq2 : headId s4 = some b2.id := q2
    have hq3 : headNodeCounter s4 = b2.nodeId + 2 := q3
    obtain ⟨b4, hstk4, hb4id, hb4n⟩ := stack_cons_of_headId s4 b2.id t hq2 q1
    have hpre : ∀ nd ∈ curByKey blockKey s, nd.idOf ≠ (⟨b.id, b.nodeId⟩ : NodeId) := by
      intro nd hnd hcon
      have hx := hwf nd hnd (by rw [hcon])
      rw [hcon] at hx
      exact absurd hx (Nat.lt_irrefl _)
    have hpost : ∀ nd ∈ newRecs, nd.idOf ≠ (⟨b.id, b.nodeId⟩ : NodeId) := by
      intro nd hnd hcon
      have hx := (RecsAuto_mem action b1.id b1.nodeId newRecs (p :: ps) 1 hrecs nd hnd).2
      rw [hcon] at hx
      exact absurd hx (Nat.not_le_of_lt hbn1)
    have hmap4 : curByKey blockKey s4 = curByKey blockKey s ++
        (Node.record ⟨b.id, b.nodeId⟩ (applyPipeFlags false items1 ++ [ixA]) act0 (some v)
          ne0 sc0) :: newRecs := by
      rw [q4, hkey3, hkey2, hkey1, List.map_append, List.map_append,
        map_guard_id _ _ _ hpre, map_guard_id _ _ _ hpost]
      simp [Node.idOf, recPushAttrLocal]
    rcases hni : stNextId s4 with ⟨aid, sF⟩
    have hni2 := (stNextId_eq s4 b4 t hstk4).symm.trans hni
    rw [Prod.mk.injEq] at hni2
    obtain ⟨haid, hsF⟩ := hni2
    refine ⟨lattrs ++ [Node.attrN aid (attrEqKey attrTok isNum) v false], sF,
      Node.record ⟨b.id, b.nodeId⟩ (applyPipeFlags false items1 ++ [ixA]) act0 (some v)
        ne0 sc0, newRecs, ?_, ?_, ?_, rfl, fun h => absurd h (List.cons_ne_nil p ps), ?_⟩
    · simp only [attributeEqualityRule, hrr, hloop, bind, Except.bind]
      rw [if_pos (show ((p :: ps) : List (Token × List RecItem)).length ≠ 0 by simp)]
      simp only [hax, Node.idOf]
      rw [← hs4]
      simp only [hval, hni]
    · rw [← hsF]
      have hx : curByKey blockKey { s4 with stack := { b4 with nodeId := b4.nodeId + 1 } :: t } =
          curByKey blockKey s4 := by
        rw [curByKey_mk blockKey _ { b4 with nodeId := b4.nodeId + 1 } t rfl,
            curByKey_mk blockKey s4 b4 t hstk4]
        cases blockKey <;> rfl
      rw [hx, hmap4]
    · exact RecsAuto_length action b1.id b1.nodeId newRecs (p :: ps) 1 hrecs
    · intro _
      refine ⟨⟨⟨b2.id, b2.nodeId + 1⟩, ⟨b2.id, b2.nodeId⟩, by rw [hixA]; rfl⟩, ?_⟩
      rw [hb1id] at hrecs
      exact RecsAuto_mono action b.id b.nodeId b1.nodeId (Nat.le_of_lt hbn1)
        newRecs (p :: ps) 1 hrecs

theorem c3_witness :
    ∃ attrs sFin R1 newRecs,
      attributeEqualityRule ⟨"attr1", 2, 1⟩ false false BlockKey.scan none
        (AttrEqRhs.records (⟨"[", 2, 5⟩, []) [(⟨"[", 2, 10⟩, [])])
        (pushBlock (some "b0") {}) = .ok (attrs, sFin) ∧
      curByKey BlockKey.scan sFin =
        curByKey BlockKey.scan (pushBlock (some "b0") {}) ++ R1 :: newRecs ∧
      newRecs.length = [((⟨"[", 2, 10⟩ : Token), ([] : List RecItem))].length ∧
      R1.idOf = ⟨BlockId.root "b0", 0⟩ ∧
      ([((⟨"[", 2, 10⟩ : Token), ([] : List RecItem))] = [] →
        R1.recAttrsOf = some (applyPipeFlags false [])) ∧
      ([((⟨"[", 2, 10⟩ : Token), ([] : List RecItem))] ≠ [] →
        (∃ aid cid, R1.recAttrsOf = some (applyPipeFlags false [] ++
          [Node.attrN aid (EValue.str "eve-auto-index")
            (Node.constant cid (EValue.num 1)) false])) ∧
        RecsAuto none (BlockId.root "b0") 0 newRecs
          [((⟨"[", 2, 10⟩ : Token), ([] : List RecItem))] 1) :=
  c3_attributeEquality_autoindex ⟨"attr1", 2, 1⟩ false BlockKey.scan none ⟨"[", 2, 5⟩ []
    [(⟨"[", 2, 10⟩, [])] (pushBlock (some "b0") {}) { id := .root "b0", lookupRef := 0 } []
    rfl (fun nd hnd => absurd hnd (List.not_mem_nil nd))

/-!
## C2: if-expression lowering and equality output attachment
-/

/-- `ifOutputs` of a non-parenthesis node wraps its single value. -/
theorem ifOutputs_value (x v : Node) (hpar : x.isParen = false) (hval : asValue x = .ok v) :
    ifOutputs x = .ok [v] := by
  cases x <;> simp [Node.isParen] at hpar <;>
    simp [ifOutputs, bind, Except.bind, pure, Except.pure, hval]

/-- An equality whose right-hand side is an `ifExpression` sets the
ifExpression's outputs to `ifOutputs(left)`, appends it to `scanLike`, and
records no equality and no expression. -/
theorem comparisonRule_ifeq (eqTok : Token) (left ifNode : Node) (louts : List Node)
    (s : PState) (b : Block) (t : List Block) (hstk : s.stack = b :: t)
    (hif : ifNode.isIfExpr = true) (houts : ifOutputs left = .ok louts) :
    comparisonRule false left [(CompTok.eq eqTok, ifNode)] s =
      .ok (Node.cmpNode ⟨b.id, b.nodeId⟩ [],
        { s with stack :=
            { b with
                nodeId := b.nodeId + 1,
                scanLike := b.scanLike ++ [setIfOutputs louts ifNode] } :: t }) := by
  simp [comparisonRule, cmpLoop, CompTok.isEquality, hif, houts, bind, Except.bind,
    stScan, onCur, stNextId, hstk]

/-- `ifBranch`/`elseIfBranch`/`elseBranch` common shape: push a sub-block,
run the body inside it, pop it into the block store, and build an
`ifBranch` node carrying the popped sub-block's id and the body result's
`ifOutputs`. -/
theorem branchRule_effect (exclusive : Bool) (body : ExprEff) (s : PState) (b : Block)
    (t : List Block) (hstk : s.stack = b :: t) (hok : BodyOk body) :
    ∃ e s1 outs blk s',
      body (pushBlock none s) = .ok (e, s1) ∧
      ifOutputs e = .ok outs ∧
      branchRule exclusive body s = .ok
        (Node.ifBranch ⟨b.id, b.nodeId + 1⟩ (BlockId.sub b.id b.nodeId) outs exclusive, s') ∧
      s'.stack = { b with nodeId := b.nodeId + 2 } :: t ∧
      blk.id = BlockId.sub b.id b.nodeId ∧
      s'.blockStore = (BlockId.sub b.id b.nodeId, blk) :: s1.blockStore ∧
      (∃ pre, s'.blockStore = pre ++ s.blockStore) := by
  obtain ⟨fr, tot⟩ := hok
  obtain ⟨e, s1, outs, hbody, houts⟩ := tot (pushBlock none s)
  obtain ⟨htl, hhd, pre, hbs⟩ := fr _ _ _ hbody
  have hpush : pushBlock none s = { s with stack :=
      { id := BlockId.sub b.id b.nodeId, nodeId := 0, lookupRef := b.lookupRef } ::
      { b with nodeId := b.nodeId + 1 } :: t } := by
    simp [pushBlock, Block.subBlock, hstk]
  have htl' : s1.stack.tail = { b with nodeId := b.nodeId + 1 } :: t := by
    rw [htl, hpush]
    rfl
  have hhd' : headId s1 = some (BlockId.sub b.id b.nodeId) := by
    rw [hhd, hpush]
    rfl
  obtain ⟨hd1, hstk1, hhd1id, _⟩ := stack_cons_of_headId s1 (BlockId.sub b.id b.nodeId)
    ({ b with nodeId := b.nodeId + 1 } :: t) hhd' htl'
  have hpop : popBlock s1 = (some hd1,
      { s1 with stack := { b with nodeId := b.nodeId + 1 } :: t,
                blockStore := (hd1.id, hd1) :: s1.blockStore }) := by
    simp [popBlock, hstk1]
  refine ⟨e, s1, outs, hd1,
    { s1 with stack := { b with nodeId := b.nodeId + 1 + 1 } :: t,
              blockStore := (hd1.id, hd1) :: s1.blockStore },
    hbody, houts, ?_, rfl, hhd1id, by rw [hhd1id], ?_⟩
  · simp only [branchRule, hbody, bind, Except.bind, hpop, houts, stNextId, hhd1id]
  · refine ⟨(hd1.id, hd1) :: pre, ?_⟩
    show (hd1.id, hd1) :: s1.blockStore = ((hd1.id, hd1) :: pre) ++ s.blockStore
    rw [hbs, hpush]
    rfl

/-- `ifExpression`'s branch loop: it allocates two outer node ids per
branch, only adds to the block store, produces branch nodes satisfying
`BranchesOk`, and every produced branch's own sub-block is in the final
block store. -/
theorem restBranches_spec (t : List Block) (rbs : List RestBranch) :
    (∀ rb ∈ rbs, BodyOk rb.body) →
    ∀ (s : PState) (b : Block), s.stack = b :: t →
    ∃ ns s' b' pre,
      restBranches rbs s = .ok (ns, s') ∧
      s'.stack = b' :: t ∧ b'.id = b.id ∧ b'.nodeId = b.nodeId + 2 * rbs.length ∧
      s'.blockStore = pre ++ s.blockStore ∧
      BranchesOk b.id b.nodeId ns rbs ∧
      (∀ n ∈ ns, ∃ blkId blk, n.branchBlock = some blkId ∧ blk.id = blkId ∧
        (blkId, blk) ∈ s'.blockStore) := by
  induction rbs with
  | nil =>
    intro _ s b hstk
    refine ⟨[], s, b, [], rfl, hstk, rfl, by simp, rfl, trivial,
      fun n hn => absurd hn (List.not_mem_nil n)⟩
  | cons rb rbs ih =>
    intro hoks s b hstk
    have hok1 : BodyOk rb.body := hoks rb (List.mem_cons_self rb rbs)
    obtain ⟨e, s1, outs, blk, s2, hbody, houts, hbr, hstk2, hblkid, hbs2, ⟨pre1, hpre1⟩⟩ :=
      branchRule_effect rb.exclusive rb.body s b t hstk hok1
    obtain ⟨ns, s3, b3, pre2, hloop, hstk3, hb3id, hb3n, hbs3, hbok, hmem⟩ :=
      ih (fun rb2 h2 => hoks rb2 (List.mem_cons_of_mem rb h2)) s2
        { b with nodeId := b.nodeId + 2 } hstk2
    refine ⟨Node.ifBranch ⟨b.id, b.nodeId + 1⟩ (BlockId.sub b.id b.nodeId) outs
        rb.exclusive :: ns,
      s3, b3, pre2 ++ pre1, ?_, hstk3, ?_, ?_, ?_, ?_, ?_⟩
    · simp only [restBranches, hbr, hloop, bind, Except.bind]
    · rw [hb3id]
    · rw [hb3n, List.length_cons]
      show b.nodeId + 2 + 2 * rbs.length = b.nodeId + 2 * (rbs.length + 1)
      omega
    · rw [hbs3, hpre1, List.append_assoc]
    · exact ⟨⟨e, pushBlock none s, s1, outs, hbody, houts, rfl⟩, hbok⟩
    · intro n hn
      rcases List.mem_cons.mp hn with rfl | hn'
      · refine ⟨BlockId.sub b.id b.nodeId, blk, rfl, hblkid, ?_⟩
        rw [hbs3]
        refine List.mem_append_right _ ?_
        rw [hbs2]
        exact List.mem_cons_self _ _
      · exact hmem n hn'

/-- The `ifExpression` rule builds the branch list in source order: the
leading plain `if` branch first, then the further branches, then the
`else` branch; branch exclusivity flags, outputs, and own sub-blocks per
`BranchesOk`, with the `else` branch exclusive. -/
theorem ifExpressionRule_spec (first : ExprEff) (rest : List RestBranch)
    (els : Option ExprEff) (s : PState) (b : Block) (t : List Block)
    (hstk : s.stack = b :: t) (hok1 : BodyOk first) (hoks : ∀ rb ∈ rest, BodyOk rb.body)
    (hokE : ∀ eff, els = some eff → BodyOk eff) :
    ∃ iid firstB restBs elseBs s',
      ifExpressionRule first rest els s =
        .ok (Node.ifExpr iid (firstB :: (restBs ++ elseBs)) none, s') ∧
      BranchesOk b.id b.nodeId (firstB :: restBs) (RestBranch.plainIf first :: rest) ∧
      (els = none → elseBs = []) ∧
      (∀ eff, els = some eff → ∃ ebid eblkId eouts e es1 es2,
        eff es1 = .ok (e, es2) ∧ ifOutputs e = .ok eouts ∧
        elseBs = [Node.ifBranch ebid eblkId eouts true]) ∧
      (∀ n ∈ firstB :: (restBs ++ elseBs), ∃ blkId blk,
        n.branchBlock = some blkId ∧ blk.id = blkId ∧ (blkId, blk) ∈ s'.blockStore) := by
  obtain ⟨e1, s1, outs1, blk1, s2, hbody1, houts1, hbr1, hstk2, hblkid1, hbs2, ⟨pre1, hpre1⟩⟩ :=
    branchRule_effect false first s b t hstk hok1
  obtain ⟨ns, s3, b3, pre2, hloop, hstk3, hb3id, hb3n, hbs3, hbok, hmem⟩ :=
    restBranches_spec t rest hoks s2 { b with nodeId := b.nodeId + 2 } hstk2
  cases els with
  | none =>
    rcases hni : stNextId s3 with ⟨iid, sF⟩
    have hni2 := (stNextId_eq s3 b3 t hstk3).symm.trans hni
    rw [Prod.mk.injEq] at hni2
    obtain ⟨hiid, hsF⟩ := hni2
    have hstore : sF.blockStore = s3.blockStore := by rw [← hsF]
    refine ⟨iid, Node.ifBranch ⟨b.id, b.nodeId + 1⟩ (BlockId.sub b.id b.nodeId) outs1 false,
      ns, [], sF, ?_, ?_, fun _ => rfl, ?_, ?_⟩
    · simp only [ifExpressionRule, ifBranchRule, hbr1, hloop, bind, Except.bind, hni]
    · exact ⟨⟨e1, pushBlock none s, s1, outs1, hbody1, houts1, rfl⟩, hbok⟩
    · intro eff heff
      exact Option.noConfusion heff
    · intro n hn
      rw [List.append_nil] at hn
      rcases List.mem_cons.mp hn with rfl | hn'
      · refine ⟨BlockId.sub b.id b.nodeId, blk1, rfl, hblkid1, ?_⟩
        rw [hstore, hbs3]
        refine List.mem_append_right _ ?_
        rw [hbs2]
        exact List.mem_cons_self _ _
      · obtain ⟨blkId, blk, hm1, hm2, hm3⟩ := hmem n hn'
        exact ⟨blkId, blk, hm1, hm2, by rw [hstore]; exact hm3⟩
  | some eff =>
    have hokE' : BodyOk eff := hokE eff rfl
    obtain ⟨e2, es1, outs2, blk2, s4, hbody2, houts2, hbr2, hstk4, hblkid2, hbs4, ⟨pre3, hpre3⟩⟩ :=
      branchRule_effect true eff s3 b3 t hstk3 hokE'
    rcases hni : stNextId s4 with ⟨iid, sF⟩
    have hni2 := (stNextId_eq s4 { b3 with nodeId := b3.nodeId + 2 } t hstk4).symm.trans hni
    rw [Prod.mk.injEq] at hni2
    obtain ⟨hiid, hsF⟩ := hni2
    have hstore : sF.blockStore = s4.blockStore := by rw [← hsF]
    refine ⟨iid, Node.ifBranch ⟨b.id, b.nodeId + 1⟩ (BlockId.sub b.id b.nodeId) outs1 false,
      ns, [Node.ifBranch ⟨b3.id, b3.nodeId + 1⟩ (BlockId.sub b3.id b3.nodeId) outs2 true],
      sF, ?_, ?_, ?_, ?_, ?_⟩
    · simp only [ifExpressionRule, ifBranchRule, elseBranchRule, hbr1, hloop, hbr2,
        bind, Except.bind, hni]
    · exact ⟨⟨e1, pushBlock none s, s1, outs1, hbody1, houts1, rfl⟩, hbok⟩
    · intro h
      exact Option.noConfusion h
    · intro eff2 heff
      have heq : eff = eff2 := Option.some.inj heff
      subst heq
      exact ⟨⟨b3.id, b3.nodeId + 1⟩, BlockId.sub b3.id b3.nodeId, outs2, e2,
        pushBlock none s3, es1, hbody2, houts2, rfl⟩
    · obtain ⟨preE, hpreE⟩ : ∃ preE, es1.blockStore = preE ++ s3.blockStore := by
        obtain ⟨frE, _⟩ := hokE'
        obtain ⟨_, _, preE, hpreE2⟩ := frE _ _ _ hbody2
        have hsame : (pushBlock none s3).blockStore = s3.blockStore := by
          simp [pushBlock, Block.subBlock, hstk3]
        exact ⟨preE, by rw [hpreE2, hsame]⟩
      intro n hn
      rcases List.mem_cons.mp hn with rfl | hn'
      · refine ⟨BlockId.sub b.id b.nodeId, blk1, rfl, hblkid1, ?_⟩
        rw [hstore, hbs4, hpreE]
        refine List.mem_cons_of_mem _ (List.mem_append_right _ ?_)
        rw [hbs3]
        refine List.mem_append_right _ ?_
        rw [hbs2]
        exact List.mem_cons_self _ _
      · rcases List.mem_append.mp hn' with hn2 | hn2
        · obtain ⟨blkId, blk, hm1, hm2, hm3⟩ := hmem n hn2
          refine ⟨blkId, blk, hm1, hm2, ?_⟩
          rw [hstore, hbs4, hpreE]
          exact List.mem_cons_of_mem _ (List.mem_append_right _ hm3)
        · have hn3 : n = Node.ifBranch ⟨b3.id, b3.nodeId + 1⟩
              (BlockId.sub b3.id b3.nodeId) outs2 true := by simpa using hn2
          subst hn3
          refine ⟨BlockId.sub b3.id b3.nodeId, blk2, rfl, hblkid2, ?_⟩
          rw [hstore, hbs4]
          exact List.mem_cons_self _ _

/-- C2: (1) an equality whose right-hand side is an `ifExpression` sets
the ifExpression's `outputs` to `ifOutputs(left)` and appends it to the
enclosing block's `scanLike`; (2) `ifOutputs` of a parenthesis is its
items' values and of any other node its single value; (3) `ifExpression`
builds its branch list in source order — the leading plain `if` branch
with `exclusive = false` and every further branch flagged per its kind
(`else if` exclusive, plain `if` not), each branch carrying its body's
`ifOutputs` and its own sub-block kept in the block store, and the `else`
branch exclusive. -/
theorem c2_ifExpression_equality :
    (∀ (eqTok : Token) (left ifNode : Node) (louts : List Node) (s : PState) (b : Block)
        (t : List Block), s.stack = b :: t → ifNode.isIfExpr = true →
        ifOutputs left = .ok louts →
        comparisonRule false left [(CompTok.eq eqTok, ifNode)] s =
          .ok (Node.cmpNode ⟨b.id, b.nodeId⟩ [],
            { s with stack :=
                { b with
                    nodeId := b.nodeId + 1,
                    scanLike := b.scanLike ++ [setIfOutputs louts ifNode] } :: t })) ∧
    (∀ (pid : NodeId) (items : List Node),
        ifOutputs (Node.paren pid items) = items.mapM asValue) ∧
    (∀ (x v : Node), x.isParen = false → asValue x = .ok v → ifOutputs x = .ok [v]) ∧
    (∀ (first : ExprEff) (rest : List RestBranch) (els : Option ExprEff) (s : PState)
        (b : Block) (t : List Block), s.stack = b :: t → BodyOk first →
        (∀ rb ∈ rest, BodyOk rb.body) → (∀ eff, els = some eff → BodyOk eff) →
        ∃ iid firstB restBs elseBs s',
          ifExpressionRule first rest els s =
            .ok (Node.ifExpr iid (firstB :: (restBs ++ elseBs)) none, s') ∧
          BranchesOk b.id b.nodeId (firstB :: restBs) (RestBranch.plainIf first :: rest) ∧
          (els = none → elseBs = []) ∧
          (∀ eff, els = some eff → ∃ ebid eblkId eouts e es1 es2,
            eff es1 = .ok (e, es2) ∧ ifOutputs e = .ok eouts ∧
            elseBs = [Node.ifBranch ebid eblkId eouts true]) ∧
          (∀ n ∈ firstB :: (restBs ++ elseBs), ∃ blkId blk,
            n.branchBlock = some blkId ∧ blk.id = blkId ∧ (blkId, blk) ∈ s'.blockStore)) :=
  ⟨comparisonRule_ifeq, fun _ _ => rfl, ifOutputs_value, ifExpressionRule_spec⟩

/-- A branch body consisting of a single number literal is well behaved
(the concrete body used by the C2 witness). -/
theorem bodyOk_num (tk : Token) : BodyOk (fun s => .ok (numRule tk s)) := by
  constructor
  · intro s n s' h
    have h2 : numRule tk s = (n, s') := Except.ok.inj h
    have hs' : s' = (numRule tk s).2 := by rw [h2]
    subst hs'
    cases hs : s.stack with
    | nil =>
      refine ⟨?_, ?_, [], ?_⟩ <;> simp [numRule, stNextId, hs, headId]
    | cons bb rest =>
      refine ⟨?_, ?_, [], ?_⟩ <;> simp [numRule, stNextId, hs, headId]
  · intro s
    refine ⟨(numRule tk s).1, (numRule tk s).2, [(numRule tk s).1], rfl, ?_⟩
    cases hs : s.stack with
    | nil =>
      simp [numRule, stNextId, hs, ifOutputs, asValue, bind, Except.bind, pure, Except.pure]
    | cons bb rest =>
      simp [numRule, stNextId, hs, ifOutputs, asValue, bind, Except.bind, pure, Except.pure]

theorem c2_witness :
    (comparisonRule false (Node.varN ⟨BlockId.root "z", 0⟩ "x" false false)
      [(CompTok.eq ⟨"=", 1, 3⟩, Node.ifExpr ⟨BlockId.root "z", 1⟩ [] none)]
      (pushBlock (some "b0") {}) =
      .ok (Node.cmpNode ⟨BlockId.root "b0", 0⟩ [],
        { pushBlock (some "b0") {} with stack :=
            [{ id := BlockId.root "b0", lookupRef := 0, nodeId := 1,
               scanLike := [setIfOutputs [Node.varN ⟨BlockId.root "z", 0⟩ "x" false false]
                 (Node.ifExpr ⟨BlockId.root "z", 1⟩ [] none)] }] })) ∧
    (∃ iid firstB restBs elseBs s',
      ifExpressionRule (fun s => .ok (numRule ⟨"0", 1, 20⟩ s)) []
        (some (fun s => .ok (numRule ⟨"1", 1, 30⟩ s))) (pushBlock (some "b0") {}) =
        .ok (Node.ifExpr iid (firstB :: (restBs ++ elseBs)) none, s') ∧
      BranchesOk (BlockId.root "b0") 0 (firstB :: restBs)
        [RestBranch.plainIf (fun s => .ok (numRule ⟨"0", 1, 20⟩ s))] ∧
      elseBs.length = 1) := by
  obtain ⟨hA, hParen, hVal, hC⟩ := c2_ifExpression_equality
  constructor
  · exact hA ⟨"=", 1, 3⟩ (Node.varN ⟨BlockId.root "z", 0⟩ "x" false false)
      (Node.ifExpr ⟨BlockId.root "z", 1⟩ [] none)
      [Node.varN ⟨BlockId.root "z", 0⟩ "x" false false]
      (pushBlock (some "b0") {}) { id := .root "b0", lookupRef := 0 } [] rfl rfl rfl
  · obtain ⟨iid, firstB, restBs, elseBs, s', heq, hbok, _, hsome, _⟩ :=
      hC (fun s => .ok (numRule ⟨"0", 1, 20⟩ s)) []
        (some (fun s => .ok (numRule ⟨"1", 1, 30⟩ s)))
        (pushBlock (some "b0") {}) { id := .root "b0", lookupRef := 0 } [] rfl
        (bodyOk_num ⟨"0", 1, 20⟩) (fun rb hrb => absurd hrb (List.not_mem_nil rb))
        (fun eff heff => by
          rw [← Option.some.inj heff]
          exact bodyOk_num ⟨"1", 1, 30⟩)
    obtain ⟨ebid, eblkId, eouts, e, es1, es2, _, _, helse⟩ :=
      hsome (fun s => .ok (numRule ⟨"1", 1, 30⟩ s)) rfl
    exact ⟨iid, firstB, restBs, elseBs, s', heq, hbok, by rw [helse]; rfl⟩

end EveParse
